import Mathlib

/-!
Verification of the IR remote-control record/playback utility
(`irrp_wrapper.py`): a shallow embedding of its pulse normaliser,
confirmation matcher, capture state machine, carrier-wave expansion and
JSON code store, together with proofs about them.

Durations are modelled as exact rationals (`ℚ`): the Python code computes
with floats, whose values on the inputs of interest coincide with the
ideal rational arithmetic; `round` is Python's round-half-to-even.

Because the kernel cannot reduce `Nat.gcd` (it is defined by well-founded
recursion), the embedding performs rational arithmetic through a
fuel-based normalisation (`qmk`, `qadd`, `qmul`, `qdiv`) that the kernel
can evaluate; each operation is proved equal to the standard `ℚ`
operation, so theorems are stated and proved over ordinary rational
arithmetic while concrete instances can be checked by `decide`.
-/

namespace Irrp

/-- Euclid's algorithm with explicit fuel, so that the kernel can reduce it
(`Nat.gcd` itself is well-founded recursion, which `decide` cannot unfold). -/
def gcdF : Nat → Nat → Nat → Nat
  | 0, _, b => b
  | f+1, a, b => if a = 0 then b else gcdF f (b % a) a

theorem gcdF_eq (f : Nat) : ∀ a b, a ≤ f → gcdF f a b = Nat.gcd a b := by
  induction f with
  | zero => intro a b h; interval_cases a; simp [gcdF]
  | succ f ih =>
    intro a b h
    by_cases ha : a = 0
    · subst ha; simp [gcdF]
    · rw [gcdF, if_neg ha, ih _ _ ?_, ← Nat.gcd_rec]
      have : b % a < a := Nat.mod_lt _ (Nat.pos_of_ne_zero ha)
      omega

theorem qmk_den_nz {n : ℤ} {d : ℕ} (hd : d ≠ 0) : d / gcdF n.natAbs n.natAbs d ≠ 0 := by
  rw [gcdF_eq _ _ _ (Nat.le_refl _)]
  have hg0 : Nat.gcd n.natAbs d ≠ 0 := fun h0 => hd (Nat.eq_zero_of_gcd_eq_zero_right h0)
  rw [Nat.div_ne_zero_iff hg0]
  exact Nat.le_of_dvd (Nat.pos_of_ne_zero hd) (Nat.gcd_dvd_right _ _)

theorem qmk_reduced {n : ℤ} {d : ℕ} (hd : d ≠ 0) :
    (n / (gcdF n.natAbs n.natAbs d : ℤ)).natAbs.Coprime (d / gcdF n.natAbs n.natAbs d) := by
  rw [gcdF_eq _ _ _ (Nat.le_refl _)]
  have hg0 : Nat.gcd n.natAbs d ≠ 0 := fun h0 => hd (Nat.eq_zero_of_gcd_eq_zero_right h0)
  set G := Nat.gcd n.natAbs d with hG
  have hgz : ((G : ℕ) : ℤ) ≠ 0 := by exact_mod_cast hg0
  have hdvdn : ((G : ℕ) : ℤ) ∣ n := by
    rw [hG]
    exact Int.dvd_natAbs.mp (Int.natCast_dvd_natCast.mpr (Nat.gcd_dvd_left _ _))
  obtain ⟨k, hk⟩ := hdvdn
  have hkabs : k.natAbs = n.natAbs / G := by
    rw [hk, Int.natAbs_mul, Int.natAbs_ofNat,
      Nat.mul_div_cancel_left _ (Nat.pos_of_ne_zero hg0)]
  rw [hk, Int.mul_ediv_cancel_left _ hgz, hkabs, hG]
  exact Nat.coprime_div_gcd_div_gcd (Nat.pos_of_ne_zero hg0)

/-- Build the rational `n / d` in lowest terms, using `gcdF` so the kernel
can evaluate it. -/
def qmk (n : ℤ) (d : ℕ) : ℚ :=
  if hd : d = 0 then 0
  else
    ⟨n / (gcdF n.natAbs n.natAbs d : ℤ), d / gcdF n.natAbs n.natAbs d,
      qmk_den_nz hd, qmk_reduced hd⟩

theorem num_eq_mul_den (a : ℚ) : (a.num : ℚ) = a * a.den := by
  have had : ((a.den : ℕ) : ℚ) ≠ 0 := by
    exact_mod_cast (Nat.cast_ne_zero (R := ℚ)).mpr a.den_nz
  exact (div_eq_iff had).mp (Rat.num_div_den a)

theorem qmk_eq (n : ℤ) (d : ℕ) : qmk n d = (n : ℚ) / (d : ℚ) := by
  by_cases hd : d = 0
  · subst hd; simp [qmk]
  · rw [qmk, dif_neg hd]
    have hgF : gcdF n.natAbs n.natAbs d = Nat.gcd n.natAbs d := gcdF_eq _ _ _ (Nat.le_refl _)
    have hg0 : Nat.gcd n.natAbs d ≠ 0 := fun h0 => hd (Nat.eq_zero_of_gcd_eq_zero_right h0)
    set G := Nat.gcd n.natAbs d with hG
    have hgz : ((G : ℕ) : ℤ) ≠ 0 := by exact_mod_cast hg0
    have hdvdn : ((G : ℕ) : ℤ) ∣ n := by
      rw [hG]
      exact Int.dvd_natAbs.mp (Int.natCast_dvd_natCast.mpr (Nat.gcd_dvd_left _ _))
    have hdvdd : G ∣ d := by rw [hG]; exact Nat.gcd_dvd_right _ _
    rw [Rat.mk'_eq_divInt]
    obtain ⟨k, hk⟩ := hdvdn
    obtain ⟨m, hm⟩ := hdvdd
    have h1 : n / (gcdF n.natAbs n.natAbs d : ℤ) = k := by
      rw [hgF, hk, Int.mul_ediv_cancel_left _ hgz]
    have h2 : d / gcdF n.natAbs n.natAbs d = m := by
      rw [hgF, hm, Nat.mul_div_cancel_left _ (Nat.pos_of_ne_zero hg0)]
    rw [h1, h2]
    calc Rat.divInt k (m : ℤ)
        = Rat.divInt (((G : ℕ) : ℤ) * k) (((G : ℕ) : ℤ) * m) :=
          (Rat.divInt_mul_left hgz).symm
      _ = Rat.divInt n (d : ℤ) := by
            rw [← hk]
            congr 1
            exact_mod_cast hm.symm
      _ = (n : ℚ) / (d : ℚ) := by rw [Rat.divInt_eq_div]; norm_cast

/-- Kernel-reducible rational addition (proved equal to `+` below). -/
def qadd (a b : ℚ) : ℚ := qmk (a.num * b.den + b.num * a.den) (a.den * b.den)

/-- Kernel-reducible rational multiplication. -/
def qmul (a b : ℚ) : ℚ := qmk (a.num * b.num) (a.den * b.den)

/-- Kernel-reducible rational subtraction. -/
def qsub (a b : ℚ) : ℚ := qadd a (-b)

/-- Signed variant of `qmk`. -/
def qmkZ (n d : ℤ) : ℚ := if d < 0 then qmk (-n) d.natAbs else qmk n d.natAbs

/-- Kernel-reducible rational division (`a / 0 = 0`, as in `ℚ`). -/
def qdiv (a b : ℚ) : ℚ := qmkZ (a.num * b.den) (a.den * b.num)

theorem qadd_eq (a b : ℚ) : qadd a b = a + b := by
  have had : ((a.den : ℕ) : ℚ) ≠ 0 := by
    exact_mod_cast (Nat.cast_ne_zero (R := ℚ)).mpr a.den_nz
  have hbd : ((b.den : ℕ) : ℚ) ≠ 0 := by
    exact_mod_cast (Nat.cast_ne_zero (R := ℚ)).mpr b.den_nz
  rw [qadd, qmk_eq, div_eq_iff (by push_cast; exact mul_ne_zero had hbd)]
  push_cast
  rw [num_eq_mul_den a, num_eq_mul_den b]
  ring

theorem qmul_eq (a b : ℚ) : qmul a b = a * b := by
  have had : ((a.den : ℕ) : ℚ) ≠ 0 := by
    exact_mod_cast (Nat.cast_ne_zero (R := ℚ)).mpr a.den_nz
  have hbd : ((b.den : ℕ) : ℚ) ≠ 0 := by
    exact_mod_cast (Nat.cast_ne_zero (R := ℚ)).mpr b.den_nz
  rw [qmul, qmk_eq, div_eq_iff (by push_cast; exact mul_ne_zero had hbd)]
  push_cast
  rw [num_eq_mul_den a, num_eq_mul_den b]
  ring

theorem qsub_eq (a b : ℚ) : qsub a b = a - b := by
  rw [qsub, qadd_eq, sub_eq_add_neg]

theorem qmkZ_eq (n d : ℤ) : qmkZ n d = (n : ℚ) / (d : ℚ) := by
  rw [qmkZ]
  by_cases hd : d < 0
  · rw [if_pos hd, qmk_eq]
    have habs : ((d.natAbs : ℕ) : ℚ) = -(d : ℚ) := by
      rw [Int.cast_natAbs, abs_of_neg hd]
      push_cast
      ring
    rw [habs]
    push_cast
    rw [neg_div_neg_eq]
  · rw [if_neg hd, qmk_eq]
    have habs : ((d.natAbs : ℕ) : ℚ) = (d : ℚ) := by
      rw [Int.cast_natAbs, abs_of_nonneg (not_lt.mp hd)]
    rw [habs]

theorem qdiv_eq (a b : ℚ) : qdiv a b = a / b := by
  rw [qdiv, qmkZ_eq]
  by_cases hb : b = 0
  · subst hb; simp
  · have hbn : (b.num : ℚ) ≠ 0 := by exact_mod_cast Rat.num_ne_zero.mpr hb
    have had : ((a.den : ℕ) : ℚ) ≠ 0 := by
      exact_mod_cast (Nat.cast_ne_zero (R := ℚ)).mpr a.den_nz
    have h1 : ((a.den * b.num : ℤ) : ℚ) ≠ 0 := by
      push_cast
      exact mul_ne_zero had hbn
    rw [div_eq_div_iff h1 hb]
    push_cast
    rw [num_eq_mul_den a, num_eq_mul_den b]
    ring

/-- Sum of a list of rationals through `qadd` (kernel-reducible). -/
def qsum : List ℚ → ℚ
  | [] => 0
  | x :: t => qadd x (qsum t)

theorem qsum_eq (l : List ℚ) : qsum l = l.sum := by
  induction l with
  | nil => rfl
  | cons x t ih => rw [qsum, qadd_eq, ih, List.sum_cons]

/-! ### Python rounding

`round(x)` on a Python float rounds half to even; `round(x, 2)` rounds
half to even at the second decimal place.  `int(round(x))` is therefore
round-half-even to an integer. -/

/-- Floor of a rational, kernel-reducible (`Int` division is Euclidean and
the denominator is positive, so this is the floor). -/
def ratFloor (q : ℚ) : ℤ := q.num / q.den

theorem ratFloor_eq (q : ℚ) : ratFloor q = ⌊q⌋ := (Rat.floor_def).symm

/-- One half, built so the kernel can reduce it. -/
def qhalf : ℚ := qmk 1 2

theorem qhalf_eq : qhalf = 1 / 2 := by
  rw [qhalf, qmk_eq]
  norm_num

/-- Python's `round` to an integer: round half to even. -/
def roundHE (q : ℚ) : ℤ :=
  let f := ratFloor q
  let r := qsub q (f : ℚ)
  if r < qhalf then f
  else if qhalf < r then f + 1
  else if f % 2 = 0 then f else f + 1

theorem roundHE_intCast (m : ℤ) : roundHE (m : ℚ) = m := by
  have h0 : ratFloor (m : ℚ) = m := by rw [ratFloor_eq, Int.floor_intCast]
  rw [roundHE]
  simp only [h0, qsub_eq, sub_self, qhalf_eq]
  rw [if_pos (by norm_num)]

theorem roundHE_le_of_le_int {q : ℚ} {m : ℤ} (h : q ≤ (m : ℚ)) : roundHE q ≤ m := by
  have hfl : ⌊q⌋ ≤ m := by
    have := Int.floor_le_floor h
    rwa [Int.floor_intCast] at this
  have hq : (⌊q⌋ : ℚ) ≤ q := Int.floor_le q
  rw [roundHE]
  simp only [ratFloor_eq, qsub_eq, qhalf_eq]
  by_cases h1 : q - (⌊q⌋ : ℚ) < 1 / 2
  · rw [if_pos h1]; exact hfl
  · rw [if_neg h1]
    have hlt : (⌊q⌋ : ℚ) < (m : ℚ) := by
      have hpos : (0 : ℚ) < q - (⌊q⌋ : ℚ) := lt_of_lt_of_le (by norm_num) (not_lt.mp h1)
      have : (⌊q⌋ : ℚ) < q := by linarith
      exact lt_of_lt_of_le this h
    have hm : ⌊q⌋ + 1 ≤ m := by exact_mod_cast Int.add_one_le_of_lt (by exact_mod_cast hlt)
    by_cases h2 : (1 : ℚ) / 2 < q - (⌊q⌋ : ℚ)
    · rw [if_pos h2]; exact hm
    · rw [if_neg h2]
      by_cases h3 : ⌊q⌋ % 2 = 0
      · rw [if_pos h3]; exact hfl
      · rw [if_neg h3]; exact hm

/-- Python's `round(x, 2)`: round half to even at the second decimal. -/
def pyRound2 (q : ℚ) : ℚ := qmk (roundHE (qmul q 100)) 100

theorem pyRound2_eq (q : ℚ) : pyRound2 q = ((roundHE (q * 100) : ℤ) : ℚ) / 100 := by
  rw [pyRound2, qmk_eq, qmul_eq]
  norm_num

theorem pyRound2_eq_self {q : ℚ} (h : (q * 100).den = 1) : pyRound2 q = q := by
  have hnum : (((q * 100).num : ℤ) : ℚ) = q * 100 := Rat.coe_int_num_of_den_eq_one h
  rw [pyRound2_eq, show q * 100 = (((q * 100).num : ℤ) : ℚ) from hnum.symm,
    roundHE_intCast, hnum]
  field_simp

theorem pyRound2_le_of_le_int {q : ℚ} {m : ℤ} (h : q ≤ (m : ℚ)) : pyRound2 q ≤ (m : ℚ) := by
  have h100 : q * 100 ≤ ((m * 100 : ℤ) : ℚ) := by push_cast; nlinarith
  have hr : roundHE (q * 100) ≤ m * 100 := roundHE_le_of_le_int h100
  rw [pyRound2_eq]
  have : ((roundHE (q * 100) : ℤ) : ℚ) ≤ ((m * 100 : ℤ) : ℚ) := by exact_mod_cast hr
  have h2 : ((roundHE (q * 100) : ℤ) : ℚ) / 100 ≤ ((m * 100 : ℤ) : ℚ) / 100 :=
    (div_le_div_iff_of_pos_right (by norm_num)).mpr this
  calc ((roundHE (q * 100) : ℤ) : ℚ) / 100 ≤ ((m * 100 : ℤ) : ℚ) / 100 := h2
    _ = (m : ℚ) := by push_cast; ring

/-! ### The pulse normaliser (`normalise` in `record`)

The Python function scans the code `c` with a processed-flag array `p`.
For each unprocessed index `i` it collects every unprocessed index `j`
of the same parity (stride-2 scan starting at `i+2`) whose value is
similar to the seed `v = c[i]` (`c[j]*TOLER_MIN < v < c[j]*TOLER_MAX`),
averages them with the seed, rounds to two decimals, writes the average
to the seed and to every similar index, and marks the similar indices
processed.  The two inner `for j` loops of the source test the same
condition on the same (unchanged) values, so they select the same
indices; the embedding computes that index list once. -/

/-- Indices `start, start+2, start+4, ...` below `n`: Python's
`range(start, n, 2)`. -/
def stride2From (start n : Nat) : List Nat :=
  (List.range n).filter (fun j => decide (start ≤ j) && decide ((j - start) % 2 = 0))

/-- The similarity test `(c[j]*TOLER_MIN) < v < (c[j]*TOLER_MAX)`. -/
def isSimilar (tmin tmax v cj : ℚ) : Bool :=
  decide (qmul cj tmin < v) && decide (v < qmul cj tmax)

/-- The indices the two inner `for j` loops select for seed `i`:
unprocessed, same parity, similar to the seed value.  Both loops test the
same condition on values that do not change in between, so they agree. -/
def normSims (tmin tmax : ℚ) (c : List ℚ) (p : List Bool) (i : Nat) : List Nat :=
  (stride2From (i + 2) c.length).filter
    (fun j => !(p.getD j false) && isSimilar tmin tmax (c.getD i 0) (c.getD j 0))

/-- `newv = round(tot / similar, 2)` where `tot` sums the seed and the
similar pulses and `similar` counts them. -/
def normNewv (tmin tmax : ℚ) (c : List ℚ) (p : List Bool) (i : Nat) : ℚ :=
  pyRound2 (qdiv
    (qadd (c.getD i 0) (qsum ((normSims tmin tmax c p i).map (fun j => c.getD j 0))))
    (qadd 1 (((normSims tmin tmax c p i).length : ℕ) : ℚ)))

/-- One iteration of the outer `for i` loop of `normalise`, acting on the
code list and the processed-flag list. -/
def normStep (tmin tmax : ℚ) (s : List ℚ × List Bool) (i : Nat) : List ℚ × List Bool :=
  if s.2.getD i false then s
  else
    ((normSims tmin tmax s.1 s.2 i).foldl
        (fun a j => a.set j (normNewv tmin tmax s.1 s.2 i))
        (s.1.set i (normNewv tmin tmax s.1 s.2 i)),
     (normSims tmin tmax s.1 s.2 i).foldl (fun a j => a.set j true) s.2)

/-- `normalise(c)`: collapse similar pulse lengths (per parity class) to
their rounded average, in place.  `tmin`/`tmax` are `TOLER_MIN`/`TOLER_MAX`. -/
def normalise (tmin tmax : ℚ) (c : List ℚ) : List ℚ :=
  ((List.range c.length).foldl (normStep tmin tmax) (c, List.replicate c.length false)).1

/-- `TOLER_MIN` for the default `tolerance = 15`: `(100-15)/100`. -/
def tolMin15 : ℚ := qmk 85 100

/-- `TOLER_MAX` for the default `tolerance = 15`: `(100+15)/100`. -/
def tolMax15 : ℚ := qmk 115 100

/-! ### The confirmation matcher (`compare` in `record`)

`compare(p1, p2)` returns `False` early if the lengths differ or some
ratio `p1[i]/p2[i]` leaves `[TOLER_MIN, TOLER_MAX]`; only after all
checks pass does it overwrite `p1` in place with the rounded averages.
The embedding returns the final contents of `p1` and `p2` together with
the boolean result; `p2` is returned unchanged because the source never
writes to it. -/

def compare (tmin tmax : ℚ) (p1 p2 : List ℚ) : (List ℚ × List ℚ) × Bool :=
  if p1.length ≠ p2.length then ((p1, p2), false)
  else if (List.range p1.length).any (fun i =>
      decide (qdiv (p1.getD i 0) (p2.getD i 0) < tmin) ||
      decide (tmax < qdiv (p1.getD i 0) (p2.getD i 0))) then ((p1, p2), false)
  else
    (((List.range p1.length).map
        (fun i => ((roundHE (qdiv (qadd (p1.getD i 0) (p2.getD i 0)) 2) : ℤ) : ℚ)),
      p2), true)

/-! ### The edge-capture state machine (`cbf` / `end_of_code` in `record`)

The callback receives `(gpio, level, tick)` events from the hardware
layer.  Non-timeout events compute the wrap-aware tick difference and
update `last_tick`; while `fetching_code` is set, a long-enough gap
starts a code, a `POST_US` gap ends it, and any other edge inside a code
is appended to the buffer.  Watchdog arming/disarming is a hardware side
effect and is not part of the captured state.  Durations are cast to `ℚ`
to match the rest of the embedding; ticks are microseconds. -/

/-- Levels delivered by the hardware layer to the callback. -/
inductive EdgeLevel where
  | low
  | high
  | timeout
deriving DecidableEq

/-- The mutable capture state of the `irrp` object (`last_tick`,
`in_code`, `code`, `fetching_code`). -/
structure CaptureState where
  lastTick : ℕ
  inCode : Bool
  code : List ℚ
  fetching : Bool
deriving DecidableEq

/-- `pigpio.tickDiff`: 32-bit wrap-aware difference `t2 - t1`. -/
def tickDiff (t1 t2 : ℕ) : ℕ := (t2 + 2 ^ 32 - t1) % 2 ^ 32

/-- `end_of_code`: keep (and normalise) the buffer when it has more than
`SHORT` pulses and clear `fetching_code`; otherwise discard the buffer
("Short code, probably a repeat") and leave `fetching_code` as it is. -/
def end_of_code (short : ℕ) (tmin tmax : ℚ) (s : CaptureState) : CaptureState :=
  if s.code.length > short then
    { s with code := normalise tmin tmax s.code, fetching := false }
  else
    { s with code := [] }

/-- The edge callback `cbf` as a state transition.  `preUs`/`postUs` are
`PRE_US`/`POST_US` (the silence thresholds in microseconds). -/
def cbf (preUs postUs short : ℕ) (tmin tmax : ℚ) (s : CaptureState)
    (level : EdgeLevel) (tick : ℕ) : CaptureState :=
  if level ≠ EdgeLevel.timeout then
    let edge := tickDiff s.lastTick tick
    let s1 : CaptureState := { s with lastTick := tick }
    if s.fetching then
      if edge > preUs ∧ s.inCode = false then { s1 with inCode := true }
      else if edge > postUs ∧ s.inCode = true then
        end_of_code short tmin tmax { s1 with inCode := false }
      else if s.inCode then { s1 with code := s.code ++ [(edge : ℚ)] }
      else s1
    else s1
  else
    if s.inCode then end_of_code short tmin tmax { s with inCode := false }
    else s

/-! ### Carrier expansion (`carrier` in `play`)

A mark of `micros` microseconds at `frequency` kHz becomes
`cycles = int(round(micros/cycle))` carrier cycles, each an on pulse of
`int(round(cycle/2))` and an off pulse chosen so that the running total
lands on the ideal cumulative boundary `int(round((c+1)*cycle))`. -/

/-- One `pigpio.pulse(gpioOn, gpioOff, delay)`. -/
structure Pulse where
  gpioOn : ℕ
  gpioOff : ℕ
  delay : ℤ
deriving DecidableEq

/-- `cycle = 1000.0 / frequency` (microseconds per carrier cycle). -/
def carrierCycle (frequency : ℚ) : ℚ := qdiv 1000 frequency

/-- `cycles = int(round(micros / cycle))`. -/
def carrierCycles (frequency micros : ℚ) : ℕ :=
  (roundHE (qdiv micros (carrierCycle frequency))).toNat

/-- `on = int(round(cycle / 2.0))`. -/
def carrierOn (frequency : ℚ) : ℤ := roundHE (qdiv (carrierCycle frequency) 2)

/-- One iteration of the `for c in range(cycles)` loop: state is
`(sofar, wf)`. -/
def carrierStep (gpio : ℕ) (cycle : ℚ) (onT : ℤ) (s : ℤ × List Pulse) (c : ℕ) :
    ℤ × List Pulse :=
  let target := roundHE (qmul (((c + 1 : ℕ) : ℕ) : ℚ) cycle)
  let sofar1 := s.1 + onT
  let off := target - sofar1
  (sofar1 + off,
   s.2 ++ [⟨2 ^ gpio, 0, onT⟩, ⟨0, 2 ^ gpio, off⟩])

/-- `carrier(gpio, frequency, micros)`: the generated waveform. -/
def carrier (gpio : ℕ) (frequency micros : ℚ) : List Pulse :=
  ((List.range (carrierCycles frequency micros)).foldl
    (carrierStep gpio (carrierCycle frequency) (carrierOn frequency)) (0, [])).2

/-! ### The JSON code store

`record` saves with
`f.write(json.dumps(records, sort_keys=True).replace("],", "],\n")+"\n")`
and loads with `json.load` inside a `try`/`except` that falls back to an
empty store; `play` exits when the file cannot be opened and calls
`json.load` outside any `try`.

The serializer below is `json.dumps` for the store's value domain —
a dict mapping strings to lists of ints — with its default separators
`", "`/`": "`, `ensure_ascii=True` escaping and `sort_keys=True`.
The parser models `json.load` restricted to the same domain (an object
whose values are arrays of integers); other JSON documents are outside
the store's format and are treated as unparseable.  As in Python's
strict mode, a raw control character inside a string literal is a parse
error.  (Lone surrogate escapes, which Python would accept, cannot be
represented in Lean's `Char` and are also rejected; the serializer never
produces them.) -/

/-- The character `\x7b` (left curly brace). -/
def lbrace : Char := Char.ofNat 123

/-- The character `\x7d` (right curly brace). -/
def rbrace : Char := Char.ofNat 125

/-- The digit character `"%04x"`-style formatting and `str` of an
integer produce for the value `n mod 16`: a decimal digit (code point
`48 + r`) below ten, a lowercase letter (code point `87 + r`) above. -/
def hexDigit (n : ℕ) : Char :=
  if n % 16 < 10 then Char.ofNat (48 + n % 16) else Char.ofNat (87 + n % 16)

/-- Python's `"\\u{0:04x}".format n` digits, for `n < 0x10000`. -/
def hex4 (n : ℕ) : List Char :=
  [hexDigit (n / 4096 % 16), hexDigit (n / 256 % 16), hexDigit (n / 16 % 16), hexDigit (n % 16)]

/-- `json.dumps` escaping of one character (`ensure_ascii=True`): quote,
backslash and the C0 controls with short escapes get them, other
printable ASCII is literal, everything else becomes `\uXXXX` (with a
surrogate pair above the BMP). -/
def jsonEscapeChar (c : Char) : List Char :=
  if c = '"' then ['\\', '"']
  else if c = '\\' then ['\\', '\\']
  else if c = '\n' then ['\\', 'n']
  else if c = '\r' then ['\\', 'r']
  else if c = '\t' then ['\\', 't']
  else if c.toNat = 8 then ['\\', 'b']
  else if c.toNat = 12 then ['\\', 'f']
  else if 32 ≤ c.toNat ∧ c.toNat ≤ 126 then [c]
  else if c.toNat < 65536 then '\\' :: 'u' :: hex4 c.toNat
  else ('\\' :: 'u' :: hex4 (55296 + (c.toNat - 65536) / 1024)) ++
    ('\\' :: 'u' :: hex4 (56320 + (c.toNat - 65536) % 1024))

def escapeChars : List Char → List Char
  | [] => []
  | c :: t => jsonEscapeChar c ++ escapeChars t

/-- `str` of a natural number, digits via fuel so the kernel can reduce it. -/
def natCharsAux : ℕ → ℕ → List Char
  | 0, _ => []
  | f + 1, n => if n = 0 then [] else natCharsAux f (n / 10) ++ [hexDigit (n % 10)]

def natChars (n : ℕ) : List Char := if n = 0 then ['0'] else natCharsAux (n + 1) n

/-- `str` of a Python int (no plus sign, no leading zeros). -/
def intChars (i : ℤ) : List Char :=
  if i < 0 then '-' :: natChars i.natAbs else natChars i.toNat

/-- `", ".join` of the serialized array elements. -/
def joinInts : List ℤ → List Char
  | [] => []
  | [i] => intChars i
  | i :: t => intChars i ++ ',' :: ' ' :: joinInts t

def encArr (l : List ℤ) : List Char := '[' :: (joinInts l ++ [']'])

/-- One `"key": [...]` entry (`": "` is the default key separator). -/
def encEntry (e : String × List ℤ) : List Char :=
  '"' :: (escapeChars e.1.data ++ '"' :: ':' :: ' ' :: encArr e.2)

def joinEntries : List (List Char) → List Char
  | [] => []
  | [e] => e
  | e :: t => e ++ ',' :: ' ' :: joinEntries t

/-- `json.dumps(m, sort_keys=True)` minus the sorting (applied to an
already ordered entry list). -/
def dumpsChars (m : List (String × List ℤ)) : List Char :=
  lbrace :: (joinEntries (m.map encEntry) ++ [rbrace])

/-- Python string comparison: lexicographic by code point. -/
def charListLt : List Char → List Char → Bool
  | [], [] => false
  | [], _ :: _ => true
  | _ :: _, [] => false
  | a :: as, b :: bs => if a < b then true else if b < a then false else charListLt as bs

def keyLt (a b : String) : Bool := charListLt a.data b.data

def insertByKey (e : String × List ℤ) : List (String × List ℤ) → List (String × List ℤ)
  | [] => [e]
  | f :: t => if keyLt e.1 f.1 then e :: f :: t else f :: insertByKey e t

/-- `sort_keys=True`: serialize the dict entries in sorted key order. -/
def sortByKey : List (String × List ℤ) → List (String × List ℤ)
  | [] => []
  | e :: t => insertByKey e (sortByKey t)

/-- `.replace("],", "],\n")`: left-to-right, non-overlapping, the
replacement is not rescanned. -/
def replaceAux : List Char → List Char
  | [] => []
  | [c] => [c]
  | c :: d :: rest =>
    if c = ']' ∧ d = ',' then c :: d :: '\n' :: replaceAux rest
    else c :: replaceAux (d :: rest)

/-- The exact character stream written to the file at the end of a
record session. -/
def saveChars (m : List (String × List ℤ)) : List Char :=
  replaceAux (dumpsChars (sortByKey m)) ++ ['\n']

def saveText (m : List (String × List ℤ)) : String := String.mk (saveChars m)

/-! #### The loader (`json.load`) -/

def mapConsChar (c : Char) :
    Option (List Char × List Char) → Option (List Char × List Char)
  | some (cs, r) => some (c :: cs, r)
  | none => none

def hexVal (c : Char) : Option ℕ :=
  if '0' ≤ c ∧ c ≤ '9' then some (c.toNat - 48)
  else if 'a' ≤ c ∧ c ≤ 'f' then some (c.toNat - 87)
  else if 'A' ≤ c ∧ c ≤ 'F' then some (c.toNat - 55)
  else none

/-- The single-character escapes `\" \\ \/ \b \f \n \r \t`. -/
def escDecode1 (e : Char) : Option Char :=
  if e = '"' then some '"'
  else if e = '\\' then some '\\'
  else if e = '/' then some '/'
  else if e = 'b' then some (Char.ofNat 8)
  else if e = 'f' then some (Char.ofNat 12)
  else if e = 'n' then some '\n'
  else if e = 'r' then some '\r'
  else if e = 't' then some '\t'
  else none

/-- Read four hex digits (the `XXXX` of `\uXXXX`). -/
def readHex4 : List Char → Option (ℕ × List Char)
  | a :: b :: c :: d :: r =>
    match hexVal a, hexVal b, hexVal c, hexVal d with
    | some ha, some hb, some hc, some hd => some (4096 * ha + 256 * hb + 16 * hc + hd, r)
    | _, _, _, _ => none
  | _ => none

/-- Decode one escape sequence (the input starts right after a
backslash): a short escape, a `\uXXXX`, or a surrogate pair
`\uD8..\uDC..` which is recombined into one character. -/
def readEsc : List Char → Option (Char × List Char)
  | [] => none
  | e :: r =>
    if e = 'u' then
      match readHex4 r with
      | none => none
      | some (h, r2) =>
        if 55296 ≤ h ∧ h ≤ 56319 then
          match r2 with
          | [] => none
          | b1 :: r2a =>
            match r2a with
            | [] => none
            | b2 :: rest2 =>
              if b1 = '\\' ∧ b2 = 'u' then
                match readHex4 rest2 with
                | none => none
                | some (l, r3) =>
                  if 56320 ≤ l ∧ l ≤ 57343 then
                    some (Char.ofNat (65536 + (h - 55296) * 1024 + (l - 56320)), r3)
                  else none
              else none
        else if 56320 ≤ h ∧ h ≤ 57343 then none
        else some (Char.ofNat h, r2)
    else
      match escDecode1 e with
      | some c => some (c, r)
      | none => none

/-- Parse the body of a JSON string literal (after the opening quote),
returning the decoded characters and the input after the closing quote.
Raw control characters are an error (Python's strict mode).  The fuel
argument (at least the input length suffices, each step consumes input)
only makes the recursion structural. -/
def parseStringBody : ℕ → List Char → Option (List Char × List Char)
  | 0, _ => none
  | _ + 1, [] => none
  | f + 1, c :: rest =>
    if c = '"' then some ([], rest)
    else if c = '\\' then
      match readEsc rest with
      | some (ch, r) => mapConsChar ch (parseStringBody f r)
      | none => none
    else if c.toNat < 32 then none
    else mapConsChar c (parseStringBody f rest)

def parseString (s : List Char) : Option (List Char × List Char) :=
  parseStringBody (s.length + 1) s

def isWsChar (c : Char) : Bool := c = ' ' || c = '\t' || c = '\n' || c = '\r'

def skipWs (s : List Char) : List Char := s.dropWhile isWsChar

def digitsVal (ds : List Char) : ℕ := ds.foldl (fun a c => 10 * a + (c.toNat - 48)) 0

def parseNatNum (s : List Char) : Option (ℕ × List Char) :=
  let ds := s.takeWhile Char.isDigit
  if ds.isEmpty then none else some (digitsVal ds, s.dropWhile Char.isDigit)

/-- Parse a JSON integer (the store's arrays contain only integers). -/
def parseInt (s : List Char) : Option (ℤ × List Char) :=
  match s with
  | [] => none
  | c :: r =>
    if c = '-' then
      match parseNatNum r with
      | some (n, rest) => some (-(n : ℤ), rest)
      | none => none
    else
      match parseNatNum (c :: r) with
      | some (n, rest) => some ((n : ℤ), rest)
      | none => none

/-- Parse the elements of a non-empty array, positioned at the first
element; fuel bounds the number of elements. -/
def parseArrayTail : ℕ → List Char → Option (List ℤ × List Char)
  | 0, _ => none
  | f + 1, s =>
    match parseInt s with
    | none => none
    | some (i, r1) =>
      match skipWs r1 with
      | ']' :: r3 => some ([i], r3)
      | ',' :: r3 =>
        match parseArrayTail f (skipWs r3) with
        | some (is, r4) => some (i :: is, r4)
        | none => none
      | _ => none

/-- Parse an array body (after the opening bracket). -/
def parseArray (f : ℕ) (s : List Char) : Option (List ℤ × List Char) :=
  match skipWs s with
  | ']' :: r2 => some ([], r2)
  | r => parseArrayTail f r

/-- Parse the entries of a non-empty object, positioned at a key's
opening quote (whitespace already skipped). -/
def parseObjTail : ℕ → List Char → Option (List (String × List ℤ) × List Char)
  | 0, _ => none
  | _ + 1, [] => none
  | f + 1, q :: r =>
    if q = '"' then
      match parseString r with
      | none => none
      | some (kcs, r1) =>
        match skipWs r1 with
        | ':' :: r2 =>
          match skipWs r2 with
          | '[' :: r3 =>
            match parseArray (f + 1) r3 with
            | none => none
            | some (arr, r4) =>
              match skipWs r4 with
              | c :: r5 =>
                if c = rbrace then some ([(String.mk kcs, arr)], r5)
                else if c = ',' then
                  match parseObjTail f (skipWs r5) with
                  | some (es, r6) => some ((String.mk kcs, arr) :: es, r6)
                  | none => none
                else none
              | [] => none
          | _ => none
        | _ => none
    else none

/-- `json.load` of a whole document in the store's format (trailing
whitespace allowed, trailing data an error). -/
def parseTop (s : List Char) : Option (List (String × List ℤ)) :=
  match skipWs s with
  | c :: r1 =>
    if c = lbrace then
      match skipWs r1 with
      | d :: r2 =>
        if d = rbrace then (if (skipWs r2).isEmpty then some [] else none)
        else
          match parseObjTail (s.length + 1) (skipWs r1) with
          | some (m, rest) => if (skipWs rest).isEmpty then some m else none
          | none => none
      | [] => none
    else none
  | [] => none

def parseRecords (s : String) : Option (List (String × List ℤ)) := parseTop s.data

/-- The load at the start of a record session:
`try: records = json.load(open(FILE)) except: records = {}` — a missing
file or any parse failure yields the empty store.  `none` models a
missing file. -/
def recordLoad (content : Option String) : List (String × List ℤ) :=
  match content with
  | none => []
  | some s => (parseRecords s).getD []

/-- What the play entry point does at session start: `exit(0)` when the
file cannot be opened, and `json.load` outside any `try` (an uncaught
exception on a corrupt file). -/
inductive PlayLoadResult where
  | exitedCantOpen
  | raisedParseError
  | ok (m : List (String × List ℤ))
deriving DecidableEq

def playLoad (content : Option String) : PlayLoadResult :=
  match content with
  | none => PlayLoadResult.exitedCantOpen
  | some s =>
    match parseRecords s with
    | none => PlayLoadResult.raisedParseError
    | some m => PlayLoadResult.ok m

/-- No adjacent occurrence of the two characters of the `.replace`
pattern (the substring the cosmetic rewrite looks for). -/
def noPair : List Char → Bool
  | [] => true
  | [_] => true
  | c :: d :: t => !(c = ']' && d = ',') && noPair (d :: t)

/-- The entry list of the saved file after the cosmetic rewrite: entries
separated by a comma, the inserted newline, and the original space
(proved below to equal `replaceAux` of the `dumps` output). -/
def entriesTextNl : List (String × List ℤ) → List Char
  | [] => []
  | [e] => encEntry e
  | e :: es => encEntry e ++ ',' :: '\n' :: ' ' :: entriesTextNl es

/-! ## Theorems -/

theorem getD_map_range {α : Type} [Inhabited α] (f : ℕ → α) (d : α) {n i : ℕ} (h : i < n) :
    ((List.range n).map f).getD i d = f i := by
  rw [List.getD_eq_getElem?_getD, List.getElem?_map, List.getElem?_range h]
  rfl

/-- The boolean mismatch test of `compare` at index `i`, in `Prop` form. -/
theorem compare_bad_iff (tmin tmax a b : ℚ) :
    (decide (qdiv a b < tmin) || decide (tmax < qdiv a b)) = true ↔
      (a / b < tmin ∨ tmax < a / b) := by
  rw [Bool.or_eq_true, decide_eq_true_iff, decide_eq_true_iff, qdiv_eq]

theorem compare_snd_iff (tmin tmax : ℚ) (p1 p2 : List ℚ) :
    (compare tmin tmax p1 p2).2 = true ↔
      (p1.length = p2.length ∧ ∀ i < p1.length,
        tmin ≤ p1.getD i 0 / p2.getD i 0 ∧ p1.getD i 0 / p2.getD i 0 ≤ tmax) := by
  by_cases hlen : p1.length = p2.length
  · rw [compare, if_neg (by simpa using hlen)]
    by_cases hany : (List.range p1.length).any (fun i =>
        decide (qdiv (p1.getD i 0) (p2.getD i 0) < tmin) ||
        decide (tmax < qdiv (p1.getD i 0) (p2.getD i 0))) = true
    · rw [if_pos hany]
      have hcontra : ¬ (p1.length = p2.length ∧ ∀ i < p1.length,
          tmin ≤ p1.getD i 0 / p2.getD i 0 ∧ p1.getD i 0 / p2.getD i 0 ≤ tmax) := by
        rintro ⟨-, hall⟩
        obtain ⟨i, hmem, hbad⟩ := List.any_eq_true.mp hany
        rw [compare_bad_iff] at hbad
        have hc := hall i (List.mem_range.mp hmem)
        rcases hbad with h | h
        · exact absurd hc.1 (not_le.mpr h)
        · exact absurd hc.2 (not_le.mpr h)
      simp only [Bool.false_eq_true, false_iff]
      exact hcontra
    · rw [if_neg hany]
      simp only [true_iff]
      refine ⟨hlen, fun i hi => ?_⟩
      have hall := List.any_eq_false.mp (Bool.eq_false_iff.mpr hany)
      have hgood := hall i (List.mem_range.mpr hi)
      rw [compare_bad_iff] at hgood
      push_neg at hgood
      exact hgood
  · rw [compare, if_pos (by simpa using hlen)]
    simp only [Bool.false_eq_true, false_iff, not_and]
    intro h
    exact absurd h hlen

theorem compare_merge_of_true (tmin tmax : ℚ) (p1 p2 : List ℚ)
    (h : (compare tmin tmax p1 p2).2 = true) :
    (compare tmin tmax p1 p2).1.1 =
      (List.range p1.length).map
        (fun i => ((roundHE ((p1.getD i 0 + p2.getD i 0) / 2) : ℤ) : ℚ)) := by
  rw [compare] at h ⊢
  by_cases hlen : p1.length ≠ p2.length
  · rw [if_pos hlen] at h
    simp at h
  · rw [if_neg hlen] at h ⊢
    by_cases hany : ((List.range p1.length).any (fun i =>
        decide (qdiv (p1.getD i 0) (p2.getD i 0) < tmin) ||
        decide (tmax < qdiv (p1.getD i 0) (p2.getD i 0)))) = true
    · rw [if_pos hany] at h
      simp at h
    · rw [if_neg hany]
      simp only [qadd_eq, qdiv_eq]

theorem compare_fail_unchanged (tmin tmax : ℚ) (p1 p2 : List ℚ)
    (h : (compare tmin tmax p1 p2).2 = false) :
    (compare tmin tmax p1 p2).1.1 = p1 ∧ (compare tmin tmax p1 p2).1.2 = p2 := by
  rw [compare] at h ⊢
  by_cases hlen : p1.length ≠ p2.length
  · rw [if_pos hlen]
    exact ⟨rfl, rfl⟩
  · rw [if_neg hlen] at h ⊢
    by_cases hany : ((List.range p1.length).any (fun i =>
        decide (qdiv (p1.getD i 0) (p2.getD i 0) < tmin) ||
        decide (tmax < qdiv (p1.getD i 0) (p2.getD i 0)))) = true
    · rw [if_pos hany]
      exact ⟨rfl, rfl⟩
    · rw [if_neg hany] at h
      simp at h

theorem compare_keeps_p2 (tmin tmax : ℚ) (p1 p2 : List ℚ) :
    (compare tmin tmax p1 p2).1.2 = p2 := by
  rw [compare]
  by_cases hlen : p1.length ≠ p2.length
  · rw [if_pos hlen]
  · rw [if_neg hlen]
    by_cases hany : ((List.range p1.length).any (fun i =>
        decide (qdiv (p1.getD i 0) (p2.getD i 0) < tmin) ||
        decide (tmax < qdiv (p1.getD i 0) (p2.getD i 0)))) = true
    · rw [if_pos hany]
    · rw [if_neg hany]

/-- C1: `compare(p1, p2)` (with every element of `p2` nonzero) succeeds
iff the lengths agree and every ratio `p1[i]/p2[i]` lies in
`[1-tol, 1+tol]`; on success it overwrites `p1[i]` with
`round((p1[i]+p2[i])/2)` for every `i`, and otherwise it reports
failure. -/
theorem c1_compare_spec (tol : ℚ) (p1 p2 : List ℚ) (hp2 : ∀ x ∈ p2, x ≠ 0) :
    ((compare (1 - tol) (1 + tol) p1 p2).2 = true ↔
      (p1.length = p2.length ∧ ∀ i < p1.length,
        1 - tol ≤ p1.getD i 0 / p2.getD i 0 ∧ p1.getD i 0 / p2.getD i 0 ≤ 1 + tol)) ∧
    ((compare (1 - tol) (1 + tol) p1 p2).2 = true →
      ((compare (1 - tol) (1 + tol) p1 p2).1.1.length = p1.length ∧
        ∀ i < p1.length, (compare (1 - tol) (1 + tol) p1 p2).1.1.getD i 0 =
          ((roundHE ((p1.getD i 0 + p2.getD i 0) / 2) : ℤ) : ℚ))) := by
  refine ⟨compare_snd_iff _ _ _ _, fun h => ?_⟩
  rw [compare_merge_of_true _ _ _ _ h]
  refine ⟨by rw [List.length_map, List.length_range], fun i hi => ?_⟩
  rw [getD_map_range _ _ hi]

/-- C1 witness: the spec's own example at 15% tolerance. -/
theorem c1_compare_spec_witness :
    (∀ x ∈ ([9020, 4570, 590, 550] : List ℚ), x ≠ 0) ∧
    (((compare (1 - qmk 15 100) (1 + qmk 15 100)
        [9000, 4500, 600, 560] [9020, 4570, 590, 550]).2 = true ↔
      (([9000, 4500, 600, 560] : List ℚ).length = ([9020, 4570, 590, 550] : List ℚ).length ∧
        ∀ i < ([9000, 4500, 600, 560] : List ℚ).length,
          1 - qmk 15 100 ≤ ([9000, 4500, 600, 560] : List ℚ).getD i 0 /
              ([9020, 4570, 590, 550] : List ℚ).getD i 0 ∧
            ([9000, 4500, 600, 560] : List ℚ).getD i 0 /
              ([9020, 4570, 590, 550] : List ℚ).getD i 0 ≤ 1 + qmk 15 100)) ∧
    ((compare (1 - qmk 15 100) (1 + qmk 15 100)
        [9000, 4500, 600, 560] [9020, 4570, 590, 550]).2 = true →
      ((compare (1 - qmk 15 100) (1 + qmk 15 100)
          [9000, 4500, 600, 560] [9020, 4570, 590, 550]).1.1.length =
        ([9000, 4500, 600, 560] : List ℚ).length ∧
        ∀ i < ([9000, 4500, 600, 560] : List ℚ).length,
          (compare (1 - qmk 15 100) (1 + qmk 15 100)
            [9000, 4500, 600, 560] [9020, 4570, 590, 550]).1.1.getD i 0 =
          ((roundHE ((([9000, 4500, 600, 560] : List ℚ).getD i 0 +
            ([9020, 4570, 590, 550] : List ℚ).getD i 0) / 2) : ℤ) : ℚ)))) :=
  ⟨by decide, c1_compare_spec (qmk 15 100) [9000, 4500, 600, 560] [9020, 4570, 590, 550]
    (by decide)⟩

/-- C9: whenever `compare(p1, p2)` fails, both lists are left exactly
unchanged (the in-place merge happens only after the whole comparison
succeeded), and `p2` is never modified even on success. -/
theorem c9_compare_atomic (tmin tmax : ℚ) (p1 p2 : List ℚ) :
    ((compare tmin tmax p1 p2).2 = false →
      (compare tmin tmax p1 p2).1.1 = p1 ∧ (compare tmin tmax p1 p2).1.2 = p2) ∧
    (compare tmin tmax p1 p2).1.2 = p2 :=
  ⟨compare_fail_unchanged tmin tmax p1 p2, compare_keeps_p2 tmin tmax p1 p2⟩

/-- C9 witness: a length mismatch leaves both lists unchanged, and on the
successful run of the spec example `p2` is also unchanged. -/
theorem c9_compare_atomic_witness :
    ((compare tolMin15 tolMax15 [1, 2] [3]).1.1 = [1, 2] ∧
      (compare tolMin15 tolMax15 [1, 2] [3]).1.2 = [3]) ∧
    (compare tolMin15 tolMax15 [9000, 4500, 600, 560] [9020, 4570, 590, 550]).1.2 =
      [9020, 4570, 590, 550] :=
  ⟨(c9_compare_atomic tolMin15 tolMax15 [1, 2] [3]).1 (by decide),
    (c9_compare_atomic tolMin15 tolMax15 [9000, 4500, 600, 560] [9020, 4570, 590, 550]).2⟩

/-- C5: on the docstring example at 15% tolerance the five short marks
(indices 2,4,6,8,10) collapse to the single value 609, the marks 9000 and
the space 4500 stay singletons, the spaces resolve to the clusters 550
(from 540, 560) and 1675 (from 1660, 1690), and the common short-mark
value differs from every space-cluster value. -/
theorem c5_normalise_example :
    normalise tolMin15 tolMax15
        [9000, 4500, 600, 540, 620, 560, 590, 1660, 620, 1690, 615] =
      [9000, 4500, 609, 550, 609, 550, 609, 1675, 609, 1675, 609] ∧
    ((609 : ℚ) ≠ 4500 ∧ (609 : ℚ) ≠ 550 ∧ (609 : ℚ) ≠ 1675) := by decide

/-- C4 is false of the code: `normalise` stores `round(tot/similar, 2)`,
a Python float, so a code recorded with `--no-confirm` is persisted with
float values.  On this 11-pulse capture the five short marks average to
`3028/5 = 605.6`, which is not an integer (numerically: its reduced
denominator is 5, and `json.dumps` writes it as `605.6`, a JSON float).
-/
theorem c4_noconfirm_stores_nonintegers :
    (normalise tolMin15 tolMax15
        [9000, 4500, 601, 540, 620, 560, 590, 1660, 602, 1690, 615]).getD 2 0 =
      qmk 3028 5 ∧
    (qmk 3028 5).den ≠ 1 := by decide

/-- C6: finalisation keeps (and normalises) a capture strictly longer
than `short` and clears the fetching flag; otherwise it empties the
buffer and leaves the fetching flag set, so the caller retries. -/
theorem c6_end_of_code_spec (short : ℕ) (tmin tmax : ℚ) (s : CaptureState)
    (hf : s.fetching = true) :
    (s.code.length > short →
      end_of_code short tmin tmax s =
        { s with code := normalise tmin tmax s.code, fetching := false }) ∧
    (¬ s.code.length > short →
      (end_of_code short tmin tmax s).code = [] ∧
      (end_of_code short tmin tmax s).fetching = true ∧
      (end_of_code short tmin tmax s).inCode = s.inCode ∧
      (end_of_code short tmin tmax s).lastTick = s.lastTick) := by
  constructor
  · intro h
    rw [end_of_code, if_pos h]
  · intro h
    rw [end_of_code, if_neg h]
    exact ⟨rfl, hf, rfl, rfl⟩

/-- C6 witness: an 11-pulse capture is kept and normalised at
`short = 10`; a 2-pulse capture is discarded with the flag left set. -/
theorem c6_end_of_code_spec_witness :
    end_of_code 10 tolMin15 tolMax15
        (CaptureState.mk 0 false
          [9000, 4500, 600, 540, 620, 560, 590, 1660, 620, 1690, 615] true) =
      CaptureState.mk 0 false
        [9000, 4500, 609, 550, 609, 550, 609, 1675, 609, 1675, 609] false ∧
    ((end_of_code 10 tolMin15 tolMax15 (CaptureState.mk 7 true [100, 50] true)).code = [] ∧
      (end_of_code 10 tolMin15 tolMax15 (CaptureState.mk 7 true [100, 50] true)).fetching =
        true) :=
  ⟨((c6_end_of_code_spec 10 tolMin15 tolMax15 _ rfl).1 (by decide)).trans (by decide),
    ⟨((c6_end_of_code_spec 10 tolMin15 tolMax15 _ rfl).2 (by decide)).1,
      ((c6_end_of_code_spec 10 tolMin15 tolMax15 _ rfl).2 (by decide)).2.1⟩⟩

/-- C2 counterexample: `normalise([100,1,113,1,125])` is normaliser
output with every element positive ([106.5, 1, 106.5, 1, 125]), yet a
second application changes it — the two mark clusters 106.5 and 125 have
drifted to within 15% of each other and merge to 112.67. -/
theorem c2_normalise_not_idempotent :
    (∀ x ∈ normalise tolMin15 tolMax15 [100, 1, 113, 1, 125], 0 < x) ∧
    normalise tolMin15 tolMax15 (normalise tolMin15 tolMax15 [100, 1, 113, 1, 125]) ≠
      normalise tolMin15 tolMax15 [100, 1, 113, 1, 125] := by decide

theorem roundHE_zero : roundHE 0 = 0 := by
  have := roundHE_intCast 0
  simpa using this

theorem carrier_fold_spec (gpio : ℕ) (cycle : ℚ) (onT : ℤ) (n : ℕ) :
    ((List.range n).foldl (carrierStep gpio cycle onT) (0, [])).1 =
      roundHE ((n : ℚ) * cycle) ∧
    ((((List.range n).foldl (carrierStep gpio cycle onT) (0, [])).2.map Pulse.delay).sum =
      ((List.range n).foldl (carrierStep gpio cycle onT) (0, [])).1) ∧
    ((List.range n).foldl (carrierStep gpio cycle onT) (0, [])).2.length = 2 * n := by
  induction n with
  | zero =>
    refine ⟨?_, rfl, rfl⟩
    rw [Nat.cast_zero, zero_mul, roundHE_zero]
    rfl
  | succ n ih =>
    rw [List.range_succ, List.foldl_append, List.foldl_cons, List.foldl_nil]
    obtain ⟨h1, h2, h3⟩ := ih
    set st := (List.range n).foldl (carrierStep gpio cycle onT) (0, []) with hst
    have hfst : (carrierStep gpio cycle onT st n).1 =
        roundHE (((n + 1 : ℕ) : ℚ) * cycle) := by
      show st.1 + onT + (roundHE (qmul (((n + 1 : ℕ) : ℕ) : ℚ) cycle) - (st.1 + onT)) = _
      rw [qmul_eq]
      ring
    refine ⟨hfst, ?_, ?_⟩
    · have hsnd : (carrierStep gpio cycle onT st n).2 =
          st.2 ++ [⟨2 ^ gpio, 0, onT⟩,
            ⟨0, 2 ^ gpio, roundHE (qmul (((n + 1 : ℕ) : ℕ) : ℚ) cycle) - (st.1 + onT)⟩] := rfl
      rw [hsnd, hfst, List.map_append, List.sum_append, h2]
      show st.1 + (onT + ((roundHE (qmul (((n + 1 : ℕ) : ℕ) : ℚ) cycle) - (st.1 + onT)) + 0)) = _
      rw [qmul_eq]
      ring
    · have hsnd : (carrierStep gpio cycle onT st n).2 =
          st.2 ++ [⟨2 ^ gpio, 0, onT⟩,
            ⟨0, 2 ^ gpio, roundHE (qmul (((n + 1 : ℕ) : ℕ) : ℚ) cycle) - (st.1 + onT)⟩] := rfl
      rw [hsnd, List.length_append, h3]
      simp only [List.length_cons, List.length_nil]
      omega

theorem carrier_fold_prefix (gpio : ℕ) (cycle : ℚ) (onT : ℤ) (k : ℕ) :
    ∀ n, k ≤ n →
      (((List.range n).foldl (carrierStep gpio cycle onT) (0, [])).2.take (2 * k)) =
        ((List.range k).foldl (carrierStep gpio cycle onT) (0, [])).2 := by
  intro n
  induction n with
  | zero =>
    intro hk
    interval_cases k
    rfl
  | succ n ih =>
    intro hk
    rcases Nat.lt_or_ge k (n + 1) with hlt | hge
    · have hkn : k ≤ n := Nat.lt_succ_iff.mp hlt
      rw [List.range_succ, List.foldl_append, List.foldl_cons, List.foldl_nil]
      set st := (List.range n).foldl (carrierStep gpio cycle onT) (0, []) with hst
      have hsnd : (carrierStep gpio cycle onT st n).2 =
          st.2 ++ [⟨2 ^ gpio, 0, onT⟩,
            ⟨0, 2 ^ gpio, roundHE (qmul (((n + 1 : ℕ) : ℕ) : ℚ) cycle) - (st.1 + onT)⟩] := rfl
      rw [hsnd, List.take_append_of_le_length, ih hkn]
      rw [(carrier_fold_spec gpio cycle onT n).2.2]
      omega
    · have hkeq : k = n + 1 := le_antisymm hk hge
      subst hkeq
      rw [← (carrier_fold_spec gpio cycle onT (n + 1)).2.2, List.take_length]

/-- C8: in the carrier expansion of a mark, after each cycle `k` the
cumulative on+off duration equals `round(k*cycle)`, the ideal cumulative
boundary, and hence the whole waveform lasts `round(cycles*cycle)`:
per-cycle rounding error does not accumulate. -/
theorem c8_carrier_drift_free (gpio : ℕ) (f micros : ℚ) (k : ℕ)
    (hk : k ≤ carrierCycles f micros) :
    (((carrier gpio f micros).take (2 * k)).map Pulse.delay).sum =
      roundHE ((k : ℚ) * carrierCycle f) ∧
    ((carrier gpio f micros).map Pulse.delay).sum =
      roundHE ((carrierCycles f micros : ℚ) * carrierCycle f) := by
  constructor
  · rw [carrier, carrier_fold_prefix gpio (carrierCycle f) (carrierOn f) k _ hk,
      (carrier_fold_spec gpio (carrierCycle f) (carrierOn f) k).2.1,
      (carrier_fold_spec gpio (carrierCycle f) (carrierOn f) k).1]
  · rw [carrier,
      (carrier_fold_spec gpio (carrierCycle f) (carrierOn f) (carrierCycles f micros)).2.1,
      (carrier_fold_spec gpio (carrierCycle f) (carrierOn f) (carrierCycles f micros)).1]

/-- C8 witness: 38 kHz, a 600 microsecond mark, all 23 cycles. -/
theorem c8_carrier_drift_free_witness :
    (23 ≤ carrierCycles 38 600) ∧
    ((((carrier 17 38 600).take (2 * 23)).map Pulse.delay).sum =
      roundHE ((23 : ℚ) * carrierCycle 38) ∧
    ((carrier 17 38 600).map Pulse.delay).sum =
      roundHE ((carrierCycles 38 600 : ℚ) * carrierCycle 38)) :=
  ⟨by decide, c8_carrier_drift_free 17 38 600 23 (by decide)⟩

theorem set_getD_self {α : Type} (l : List α) : ∀ (i : ℕ) (d : α), l.set i (l.getD i d) = l := by
  induction l with
  | nil => intro i d; rfl
  | cons x t ih =>
    intro i d
    cases i with
    | zero => rfl
    | succ i => simp only [List.set, List.getD, List.get?] at *; rw [ih]

theorem foldl_set_self (w : ℚ) :
    ∀ (l : List ℕ) (c : List ℚ), (∀ j ∈ l, c.getD j 0 = w) →
      l.foldl (fun a j => a.set j w) c = c := by
  intro l
  induction l with
  | nil => intro c _; rfl
  | cons j t ih =>
    intro c h
    rw [List.foldl_cons]
    have hj : c.set j w = c := by
      rw [← h j (List.mem_cons_self _ _)]
      exact set_getD_self c j 0
    rw [hj]
    exact ih c (fun k hk => h k (List.mem_cons_of_mem _ hk))

theorem mem_normSims_similar {tmin tmax : ℚ} {c : List ℚ} {p : List Bool} {i j : ℕ}
    (h : j ∈ normSims tmin tmax c p i) :
    j ∈ stride2From (i + 2) c.length ∧
      isSimilar tmin tmax (c.getD i 0) (c.getD j 0) = true := by
  obtain ⟨hmem, hcond⟩ := List.mem_filter.mp h
  rw [Bool.and_eq_true] at hcond
  exact ⟨hmem, hcond.2⟩

theorem normStep_fst_of_separated (tmin tmax : ℚ) (c : List ℚ)
    (H100 : ∀ i < c.length, (qmul (c.getD i 0) 100).den = 1)
    (Hsep : ∀ i < c.length, ∀ j ∈ stride2From (i + 2) c.length,
      c.getD j 0 = c.getD i 0 ∨ isSimilar tmin tmax (c.getD i 0) (c.getD j 0) = false)
    (i : ℕ) (hi : i < c.length) (p : List Bool) :
    (normStep tmin tmax (c, p) i).1 = c := by
  rw [normStep]
  by_cases hp : (c, p).2.getD i false
  · rw [if_pos hp]
  · rw [if_neg hp]
    have hvals : ∀ j ∈ normSims tmin tmax c p i, c.getD j 0 = c.getD i 0 := by
      intro j hj
      obtain ⟨hmem, hsim⟩ := mem_normSims_similar hj
      rcases Hsep i hi j hmem with h | h
      · exact h
      · rw [hsim] at h
        exact absurd h (by simp)
    have hnewv : normNewv tmin tmax c p i = c.getD i 0 := by
      rw [normNewv]
      have hmap : ∀ x ∈ (normSims tmin tmax c p i).map (fun j => c.getD j 0),
          x = c.getD i 0 := by
        intro x hx
        obtain ⟨j, hj, rfl⟩ := List.mem_map.mp hx
        exact hvals j hj
      rw [qsum_eq, List.sum_eq_card_nsmul _ _ hmap, List.length_map, qadd_eq, qadd_eq,
        qdiv_eq, nsmul_eq_mul]
      set n := (normSims tmin tmax c p i).length
      have hpos : (0 : ℚ) < 1 + (n : ℚ) := by positivity
      have harith : (c.getD i 0 + (n : ℚ) * c.getD i 0) / (1 + (n : ℚ)) = c.getD i 0 := by
        field_simp
        ring
      rw [harith]
      have h100 := H100 i hi
      rw [qmul_eq] at h100
      exact pyRound2_eq_self h100
    show ((normSims tmin tmax c p i).foldl
        (fun a j => a.set j (normNewv tmin tmax c p i))
        (c.set i (normNewv tmin tmax c p i))) = c
    rw [hnewv]
    have hset : c.set i (c.getD i 0) = c := set_getD_self c i 0
    rw [hset]
    exact foldl_set_self _ _ _ hvals

theorem foldl_normStep_fst (tmin tmax : ℚ) (c : List ℚ)
    (H100 : ∀ i < c.length, (qmul (c.getD i 0) 100).den = 1)
    (Hsep : ∀ i < c.length, ∀ j ∈ stride2From (i + 2) c.length,
      c.getD j 0 = c.getD i 0 ∨ isSimilar tmin tmax (c.getD i 0) (c.getD j 0) = false) :
    ∀ (l : List ℕ), (∀ i ∈ l, i < c.length) → ∀ p : List Bool,
      (l.foldl (normStep tmin tmax) (c, p)).1 = c := by
  intro l
  induction l with
  | nil => intro _ p; rfl
  | cons i t ih =>
    intro hmem p
    rw [List.foldl_cons]
    have h1 : (normStep tmin tmax (c, p) i).1 = c :=
      normStep_fst_of_separated tmin tmax c H100 Hsep i
        (hmem i (List.mem_cons_self _ _)) p
    have heq : normStep tmin tmax (c, p) i = (c, (normStep tmin tmax (c, p) i).2) :=
      Prod.ext_iff.mpr ⟨h1, rfl⟩
    rw [heq]
    exact ih (fun j hj => hmem j (List.mem_cons_of_mem _ hj)) _

/-- C2 (amended): the normaliser leaves a list unchanged provided every
element is an integer multiple of `1/100` (as the normaliser's
two-decimal rounding produces) and any two entries of the same parity
are either equal or fail the similarity test — i.e. the clusters of an
already-normalised list have not drifted back within tolerance of each
other.  Unrestricted idempotence is refuted by
`c2_normalise_not_idempotent`. -/
theorem c2_normalise_idempotent_separated (c : List ℚ)
    (hpos : ∀ x ∈ c, 0 < x)
    (H100 : ∀ i < c.length, (qmul (c.getD i 0) 100).den = 1)
    (Hsep : ∀ i < c.length, ∀ j ∈ stride2From (i + 2) c.length,
      c.getD j 0 = c.getD i 0 ∨ isSimilar tolMin15 tolMax15 (c.getD i 0) (c.getD j 0) = false) :
    normalise tolMin15 tolMax15 c = c := by
  rw [normalise]
  exact foldl_normStep_fst tolMin15 tolMax15 c H100 Hsep _
    (fun i hi => List.mem_range.mp hi) _

/-- C2 witness: the docstring example's normalised output is a fixed
point of the normaliser. -/
theorem c2_normalise_idempotent_separated_witness :
    ((∀ x ∈ ([9000, 4500, 609, 550, 609, 550, 609, 1675, 609, 1675, 609] : List ℚ), 0 < x) ∧
      (∀ i < ([9000, 4500, 609, 550, 609, 550, 609, 1675, 609, 1675, 609] : List ℚ).length,
        (qmul (([9000, 4500, 609, 550, 609, 550, 609, 1675, 609, 1675, 609] : List ℚ).getD i 0)
          100).den = 1)) ∧
    normalise tolMin15 tolMax15
        [9000, 4500, 609, 550, 609, 550, 609, 1675, 609, 1675, 609] =
      [9000, 4500, 609, 550, 609, 550, 609, 1675, 609, 1675, 609] :=
  ⟨⟨by decide, by decide⟩,
    c2_normalise_idempotent_separated _ (by decide) (by decide) (by decide)⟩

theorem getD_le_of_all {c : List ℚ} {M : ℚ} (hM : 0 ≤ M) (h : ∀ x ∈ c, x ≤ M) (j : ℕ) :
    c.getD j 0 ≤ M := by
  rcases Nat.lt_or_ge j c.length with hj | hj
  · rw [List.getD_eq_getElem?_getD, List.getElem?_eq_getElem hj]
    exact h _ (List.getElem_mem _)
  · rw [List.getD_eq_default _ _ hj]
    exact hM

theorem mem_foldl_set {w : ℚ} :
    ∀ (l : List ℕ) (c : List ℚ) (x : ℚ),
      x ∈ l.foldl (fun a j => a.set j w) c → x ∈ c ∨ x = w := by
  intro l
  induction l with
  | nil => intro c x hx; exact Or.inl hx
  | cons j t ih =>
    intro c x hx
    rw [List.foldl_cons] at hx
    rcases ih _ _ hx with hmem | heq
    · exact List.mem_or_eq_of_mem_set hmem
    · exact Or.inr heq

theorem normStep_bound (tmin tmax : ℚ) (m : ℤ) (hm : (0 : ℚ) ≤ (m : ℚ))
    (c : List ℚ) (p : List Bool) (i : ℕ) (h : ∀ x ∈ c, x ≤ (m : ℚ)) :
    ∀ x ∈ (normStep tmin tmax (c, p) i).1, x ≤ (m : ℚ) := by
  rw [normStep]
  by_cases hp : (c, p).2.getD i false
  · rw [if_pos hp]
    exact h
  · rw [if_neg hp]
    have hnew : normNewv tmin tmax c p i ≤ (m : ℚ) := by
      rw [normNewv, qadd_eq, qadd_eq, qdiv_eq, qsum_eq]
      have hsum : ((normSims tmin tmax c p i).map (fun j => c.getD j 0)).sum ≤
          ((normSims tmin tmax c p i).length : ℚ) * (m : ℚ) := by
        have hb : ∀ x ∈ (normSims tmin tmax c p i).map (fun j => c.getD j 0), x ≤ (m : ℚ) := by
          intro x hx
          obtain ⟨j, hj, rfl⟩ := List.mem_map.mp hx
          exact getD_le_of_all hm h j
        have := List.sum_le_card_nsmul _ _ hb
        rwa [List.length_map, nsmul_eq_mul] at this
      have hv : c.getD i 0 ≤ (m : ℚ) := getD_le_of_all hm h i
      have hden : (0 : ℚ) < 1 + ((normSims tmin tmax c p i).length : ℚ) := by positivity
      have htot : (c.getD i 0 +
          ((normSims tmin tmax c p i).map (fun j => c.getD j 0)).sum) /
          (1 + ((normSims tmin tmax c p i).length : ℚ)) ≤ (m : ℚ) := by
        rw [div_le_iff₀ hden]
        nlinarith
      exact pyRound2_le_of_le_int htot
    show ∀ x ∈ (normSims tmin tmax c p i).foldl
        (fun a j => a.set j (normNewv tmin tmax c p i))
        (c.set i (normNewv tmin tmax c p i)), x ≤ (m : ℚ)
    intro x hx
    rcases mem_foldl_set _ _ _ hx with hmem | rfl
    · rcases List.mem_or_eq_of_mem_set hmem with hmem2 | rfl
      · exact h x hmem2
      · exact hnew
    · exact hnew

theorem normalise_bound (tmin tmax : ℚ) (m : ℤ) (hm : (0 : ℚ) ≤ (m : ℚ)) (c : List ℚ)
    (h : ∀ x ∈ c, x ≤ (m : ℚ)) : ∀ x ∈ normalise tmin tmax c, x ≤ (m : ℚ) := by
  rw [normalise]
  have hgen : ∀ (l : List ℕ) (s : List ℚ × List Bool), (∀ x ∈ s.1, x ≤ (m : ℚ)) →
      ∀ x ∈ (l.foldl (normStep tmin tmax) s).1, x ≤ (m : ℚ) := by
    intro l
    induction l with
    | nil => intro s hs; exact hs
    | cons i t ih =>
      intro s hs
      rw [List.foldl_cons]
      apply ih
      have := normStep_bound tmin tmax m hm s.1 s.2 i hs
      rwa [Prod.mk.eta] at this
  exact hgen _ _ h

theorem end_of_code_bound (short : ℕ) (tmin tmax : ℚ) (m : ℤ) (hm : (0 : ℚ) ≤ (m : ℚ))
    (t : CaptureState) (ht : ∀ x ∈ t.code, x ≤ (m : ℚ)) :
    ∀ x ∈ (end_of_code short tmin tmax t).code, x ≤ (m : ℚ) := by
  rw [end_of_code]
  by_cases hlen : t.code.length > short
  · rw [if_pos hlen]
    exact normalise_bound tmin tmax m hm t.code ht
  · rw [if_neg hlen]
    intro x hx
    exact absurd hx (List.not_mem_nil x)

/-- C10: every duration the edge callback appends to the in-progress
buffer is at most `post*1000` microseconds (an edge longer than
`POST_US` ends the code instead of being appended), so boundedness of
the buffer — and hence of every raw code handed to finalisation — is an
invariant preserved by every callback invocation. -/
theorem c10_cbf_bounded (pre post short : ℕ) (tmin tmax : ℚ) (s : CaptureState)
    (level : EdgeLevel) (tick : ℕ)
    (hinv : ∀ x ∈ s.code, x ≤ ((post * 1000 : ℕ) : ℚ)) :
    ∀ x ∈ (cbf (pre * 1000) (post * 1000) short tmin tmax s level tick).code,
      x ≤ ((post * 1000 : ℕ) : ℚ) := by
  have hm : (0 : ℚ) ≤ (((post * 1000 : ℕ) : ℤ) : ℚ) := by positivity
  have hcast : (((post * 1000 : ℕ) : ℤ) : ℚ) = ((post * 1000 : ℕ) : ℚ) := by push_cast; ring
  have hend : ∀ t : CaptureState, (∀ x ∈ t.code, x ≤ ((post * 1000 : ℕ) : ℚ)) →
      ∀ x ∈ (end_of_code short tmin tmax t).code, x ≤ ((post * 1000 : ℕ) : ℚ) := by
    intro t ht
    have := end_of_code_bound short tmin tmax ((post * 1000 : ℕ) : ℤ) hm t
      (by rwa [hcast])
    rwa [hcast] at this
  rw [cbf]
  by_cases hto : level ≠ EdgeLevel.timeout
  · rw [if_pos hto]
    by_cases hf : s.fetching
    · rw [if_pos hf]
      by_cases hA : tickDiff s.lastTick tick > pre * 1000 ∧ s.inCode = false
      · rw [if_pos hA]
        exact hinv
      · rw [if_neg hA]
        by_cases hB : tickDiff s.lastTick tick > post * 1000 ∧ s.inCode = true
        · rw [if_pos hB]
          exact hend _ hinv
        · rw [if_neg hB]
          by_cases hC : s.inCode
          · rw [if_pos hC]
            show ∀ x ∈ s.code ++ [((tickDiff s.lastTick tick : ℕ) : ℚ)], _
            intro x hx
            rcases List.mem_append.mp hx with hold | hnew
            · exact hinv x hold
            · have hxe : x = ((tickDiff s.lastTick tick : ℕ) : ℚ) := List.mem_singleton.mp hnew
              have hle : tickDiff s.lastTick tick ≤ post * 1000 := by
                by_contra hgt
                exact hB ⟨Nat.lt_of_not_le (fun hcon => hgt (by omega)), hC⟩
              rw [hxe]
              exact_mod_cast hle
          · rw [if_neg hC]
            exact hinv
    · rw [if_neg hf]
      exact hinv
  · rw [if_neg hto]
    by_cases hC : s.inCode
    · rw [if_pos hC]
      exact hend _ hinv
    · rw [if_neg hC]
      exact hinv

/-- C10 witness: a concrete callback invocation appending an in-range
edge preserves the bound. -/
theorem c10_cbf_bounded_witness :
    (∀ x ∈ (CaptureState.mk 100 true [9000, 4500] true).code, x ≤ ((15 * 1000 : ℕ) : ℚ)) ∧
    ∀ x ∈ (cbf (200 * 1000) (15 * 1000) 10 tolMin15 tolMax15
        (CaptureState.mk 100 true [9000, 4500] true) EdgeLevel.low 700).code,
      x ≤ ((15 * 1000 : ℕ) : ℚ) :=
  ⟨by decide,
    c10_cbf_bounded 200 15 10 tolMin15 tolMax15
      (CaptureState.mk 100 true [9000, 4500] true) EdgeLevel.low 700 (by decide)⟩

/-! #### Store round-trip: string escaping -/

theorem hexVal_hexDigit {d : ℕ} (h : d < 16) : hexVal (hexDigit d) = some d := by
  interval_cases d <;> decide

theorem char_not_surrogate (c : Char) :
    c.toNat < 55296 ∨ (57343 < c.toNat ∧ c.toNat < 1114112) := by
  have h : Nat.isValidChar c.toNat := c.valid
  rcases h with h | h
  · exact Or.inl (by exact_mod_cast h)
  · exact Or.inr ⟨by exact_mod_cast h.1, by exact_mod_cast h.2⟩

theorem readHex4_hex4 {n : ℕ} (h : n < 65536) (xs : List Char) :
    readHex4 (hex4 n ++ xs) = some (n, xs) := by
  have e1 : hexVal (hexDigit (n / 4096 % 16)) = some (n / 4096 % 16) :=
    hexVal_hexDigit (by omega)
  have e2 : hexVal (hexDigit (n / 256 % 16)) = some (n / 256 % 16) :=
    hexVal_hexDigit (by omega)
  have e3 : hexVal (hexDigit (n / 16 % 16)) = some (n / 16 % 16) :=
    hexVal_hexDigit (by omega)
  have e4 : hexVal (hexDigit (n % 16)) = some (n % 16) := hexVal_hexDigit (by omega)
  have hval : 4096 * (n / 4096 % 16) + 256 * (n / 256 % 16) + 16 * (n / 16 % 16) + n % 16 =
      n := by omega
  simp only [hex4, List.cons_append, List.nil_append, readHex4, e1, e2, e3, e4, hval]

theorem readEsc_short {e c : Char} (h : escDecode1 e = some c) (he : e ≠ 'u')
    (xs : List Char) : readEsc (e :: xs) = some (c, xs) := by
  simp only [readEsc]
  rw [if_neg he, h]

theorem readEsc_u_bmp {n : ℕ} (h1 : n < 65536) (h2 : ¬(55296 ≤ n ∧ n ≤ 56319))
    (h3 : ¬(56320 ≤ n ∧ n ≤ 57343)) (xs : List Char) :
    readEsc ('u' :: (hex4 n ++ xs)) = some (Char.ofNat n, xs) := by
  simp only [readEsc]
  rw [if_true, readHex4_hex4 h1]
  show (if 55296 ≤ n ∧ n ≤ 56319 then _ else _) = _
  rw [if_neg h2]
  show (if 56320 ≤ n ∧ n ≤ 57343 then _ else _) = _
  rw [if_neg h3]

theorem readEsc_u_pair {n : ℕ} (hlo : 65536 ≤ n) (hhi : n < 1114112) (xs : List Char) :
    readEsc ('u' :: (hex4 (55296 + (n - 65536) / 1024) ++
      ('\\' :: 'u' :: (hex4 (56320 + (n - 65536) % 1024) ++ xs)))) =
    some (Char.ofNat n, xs) := by
  have hh1 : 55296 + (n - 65536) / 1024 < 65536 := by omega
  have hl1 : 56320 + (n - 65536) % 1024 < 65536 := by
    have := Nat.mod_lt (n - 65536) (show 0 < 1024 by omega)
    omega
  simp only [readEsc]
  rw [if_true, readHex4_hex4 hh1]
  show (if 55296 ≤ 55296 + (n - 65536) / 1024 ∧ 55296 + (n - 65536) / 1024 ≤ 56319
      then _ else _) = _
  have hdiv : (n - 65536) / 1024 ≤ 1023 := by
    have : n - 65536 < 1048576 := by omega
    omega
  rw [if_pos ⟨by omega, by omega⟩]
  show (match '\\' :: 'u' :: (hex4 (56320 + (n - 65536) % 1024) ++ xs) with
    | [] => none
    | b1 :: r2a =>
      match r2a with
      | [] => none
      | b2 :: rest2 =>
        if b1 = '\\' ∧ b2 = 'u' then
          match readHex4 rest2 with
          | none => none
          | some (l, r3) =>
            if 56320 ≤ l ∧ l ≤ 57343 then
              some (Char.ofNat (65536 + (55296 + (n - 65536) / 1024 - 55296) * 1024 +
                (l - 56320)), r3)
            else none
        else none) = _
  rw [show (match '\\' :: 'u' :: (hex4 (56320 + (n - 65536) % 1024) ++ xs) with
    | [] => none
    | b1 :: r2a =>
      match r2a with
      | [] => none
      | b2 :: rest2 =>
        if b1 = '\\' ∧ b2 = 'u' then
          match readHex4 rest2 with
          | none => none
          | some (l, r3) =>
            if 56320 ≤ l ∧ l ≤ 57343 then
              some (Char.ofNat (65536 + (55296 + (n - 65536) / 1024 - 55296) * 1024 +
                (l - 56320)), r3)
            else none
        else none) =
      (if ('\\' : Char) = '\\' ∧ ('u' : Char) = 'u' then
        match readHex4 (hex4 (56320 + (n - 65536) % 1024) ++ xs) with
        | none => none
        | some (l, r3) =>
          if 56320 ≤ l ∧ l ≤ 57343 then
            some (Char.ofNat (65536 + (55296 + (n - 65536) / 1024 - 55296) * 1024 +
              (l - 56320)), r3)
          else none
      else none) from rfl]
  rw [if_pos ⟨rfl, rfl⟩, readHex4_hex4 hl1]
  show (if 56320 ≤ 56320 + (n - 65536) % 1024 ∧ 56320 + (n - 65536) % 1024 ≤ 57343
      then _ else _) = _
  have hmod : (n - 65536) % 1024 ≤ 1023 := by
    have := Nat.mod_lt (n - 65536) (show 0 < 1024 by omega)
    omega
  rw [if_pos ⟨by omega, by omega⟩]
  have hcomb : 65536 + (55296 + (n - 65536) / 1024 - 55296) * 1024 +
      (56320 + (n - 65536) % 1024 - 56320) = n := by omega
  rw [hcomb]

theorem psb_succ_backslash (f : ℕ) {xs : List Char} {ch : Char} {r : List Char}
    (hre : readEsc xs = some (ch, r)) :
    parseStringBody (f + 1) ('\\' :: xs) = mapConsChar ch (parseStringBody f r) := by
  simp only [parseStringBody]
  rw [if_true, hre, if_neg (show ¬ ('\\' = '"') by decide)]

theorem psb_succ_lit (f : ℕ) {c : Char} (xs : List Char) (h1 : ¬ c = '"')
    (h2 : ¬ c = '\\') (h3 : ¬ c.toNat < 32) :
    parseStringBody (f + 1) (c :: xs) = mapConsChar c (parseStringBody f xs) := by
  simp only [parseStringBody]
  rw [if_neg h1, if_neg h2, if_neg h3]

theorem jesc_lit {c : Char} (h1 : ¬ c = '"') (h2 : ¬ c = '\\') (h3 : ¬ c = '\n')
    (h4 : ¬ c = '\r') (h5 : ¬ c = '\t') (h6 : ¬ c.toNat = 8) (h7 : ¬ c.toNat = 12)
    (h8 : 32 ≤ c.toNat ∧ c.toNat ≤ 126) : jsonEscapeChar c = [c] := by
  rw [jsonEscapeChar, if_neg h1, if_neg h2, if_neg h3, if_neg h4, if_neg h5, if_neg h6,
    if_neg h7, if_pos h8]

theorem jesc_bmp {c : Char} (h1 : ¬ c = '"') (h2 : ¬ c = '\\') (h3 : ¬ c = '\n')
    (h4 : ¬ c = '\r') (h5 : ¬ c = '\t') (h6 : ¬ c.toNat = 8) (h7 : ¬ c.toNat = 12)
    (h8 : ¬ (32 ≤ c.toNat ∧ c.toNat ≤ 126)) (h9 : c.toNat < 65536) :
    jsonEscapeChar c = '\\' :: 'u' :: hex4 c.toNat := by
  rw [jsonEscapeChar, if_neg h1, if_neg h2, if_neg h3, if_neg h4, if_neg h5, if_neg h6,
    if_neg h7, if_neg h8, if_pos h9]

theorem jesc_astral {c : Char} (h1 : ¬ c = '"') (h2 : ¬ c = '\\') (h3 : ¬ c = '\n')
    (h4 : ¬ c = '\r') (h5 : ¬ c = '\t') (h6 : ¬ c.toNat = 8) (h7 : ¬ c.toNat = 12)
    (h8 : ¬ (32 ≤ c.toNat ∧ c.toNat ≤ 126)) (h9 : ¬ c.toNat < 65536) :
    jsonEscapeChar c =
      ('\\' :: 'u' :: hex4 (55296 + (c.toNat - 65536) / 1024)) ++
        ('\\' :: 'u' :: hex4 (56320 + (c.toNat - 65536) % 1024)) := by
  rw [jsonEscapeChar, if_neg h1, if_neg h2, if_neg h3, if_neg h4, if_neg h5, if_neg h6,
    if_neg h7, if_neg h8, if_neg h9]

theorem parseStringBody_escape :
    ∀ (k : List Char) (fuel : ℕ) (rest : List Char), k.length < fuel →
      parseStringBody fuel (escapeChars k ++ '"' :: rest) = some (k, rest) := by
  intro k
  induction k with
  | nil =>
    intro fuel rest hf
    cases fuel with
    | zero => exact absurd hf (by simp)
    | succ f =>
      show parseStringBody (f + 1) ('"' :: rest) = some ([], rest)
      simp only [parseStringBody]
      rw [if_true]
  | cons c t ih =>
    intro fuel rest hf
    cases fuel with
    | zero => exact absurd hf (by simp)
    | succ f =>
      have hf' : t.length < f := by
        have hlen : (c :: t).length = t.length + 1 := rfl
        omega
      have hih := ih f rest hf'
      by_cases h1 : c = '"'
      · subst h1
        show parseStringBody (f + 1)
          ('\\' :: ('"' :: (escapeChars t ++ '"' :: rest))) = some ('"' :: t, rest)
        rw [psb_succ_backslash f (readEsc_short (show escDecode1 '"' = some '"' from rfl)
          (by decide) _), hih]
        rfl
      · by_cases h2 : c = '\\'
        · subst h2
          show parseStringBody (f + 1)
            ('\\' :: ('\\' :: (escapeChars t ++ '"' :: rest))) = some ('\\' :: t, rest)
          rw [psb_succ_backslash f (readEsc_short (show escDecode1 '\\' = some '\\' from rfl)
            (by decide) _), hih]
          rfl
        · by_cases h3 : c = '\n'
          · subst h3
            show parseStringBody (f + 1)
              ('\\' :: ('n' :: (escapeChars t ++ '"' :: rest))) = some ('\n' :: t, rest)
            rw [psb_succ_backslash f (readEsc_short (show escDecode1 'n' = some '\n' from rfl)
              (by decide) _), hih]
            rfl
          · by_cases h4 : c = '\r'
            · subst h4
              show parseStringBody (f + 1)
                ('\\' :: ('r' :: (escapeChars t ++ '"' :: rest))) = some ('\r' :: t, rest)
              rw [psb_succ_backslash f
                (readEsc_short (show escDecode1 'r' = some '\r' from rfl) (by decide) _), hih]
              rfl
            · by_cases h5 : c = '\t'
              · subst h5
                show parseStringBody (f + 1)
                  ('\\' :: ('t' :: (escapeChars t ++ '"' :: rest))) = some ('\t' :: t, rest)
                rw [psb_succ_backslash f
                  (readEsc_short (show escDecode1 't' = some '\t' from rfl) (by decide) _),
                  hih]
                rfl
              · by_cases h6 : c.toNat = 8
                · have hc : c = Char.ofNat 8 := by rw [← Char.ofNat_toNat c, h6]
                  subst hc
                  show parseStringBody (f + 1)
                    ('\\' :: ('b' :: (escapeChars t ++ '"' :: rest))) =
                      some (Char.ofNat 8 :: t, rest)
                  rw [psb_succ_backslash f
                    (readEsc_short (show escDecode1 'b' = some (Char.ofNat 8) from rfl)
                      (by decide) _), hih]
                  rfl
                · by_cases h7 : c.toNat = 12
                  · have hc : c = Char.ofNat 12 := by rw [← Char.ofNat_toNat c, h7]
                    subst hc
                    show parseStringBody (f + 1)
                      ('\\' :: ('f' :: (escapeChars t ++ '"' :: rest))) =
                        some (Char.ofNat 12 :: t, rest)
                    rw [psb_succ_backslash f
                      (readEsc_short (show escDecode1 'f' = some (Char.ofNat 12) from rfl)
                        (by decide) _), hih]
                    rfl
                  · by_cases h8 : 32 ≤ c.toNat ∧ c.toNat ≤ 126
                    · have hesc : escapeChars (c :: t) = c :: escapeChars t := by
                        show jsonEscapeChar c ++ escapeChars t = _
                        rw [jesc_lit h1 h2 h3 h4 h5 h6 h7 h8]
                        rfl
                      rw [hesc, List.cons_append,
                        psb_succ_lit f _ h1 h2 (by omega), hih]
                      rfl
                    · by_cases h9 : c.toNat < 65536
                      · have hesc : escapeChars (c :: t) =
                            ('\\' :: 'u' :: hex4 c.toNat) ++ escapeChars t := by
                          show jsonEscapeChar c ++ escapeChars t = _
                          rw [jesc_bmp h1 h2 h3 h4 h5 h6 h7 h8 h9]
                        have hns : c.toNat < 55296 ∨ 57343 < c.toNat := by
                          rcases char_not_surrogate c with h | h
                          · exact Or.inl h
                          · exact Or.inr h.1
                        rw [hesc]
                        simp only [List.cons_append, List.append_assoc]
                        rw [psb_succ_backslash f
                          (readEsc_u_bmp h9 (by omega) (by omega) _), Char.ofNat_toNat, hih]
                        rfl
                      · have h65 : 65536 ≤ c.toNat := by omega
                        have hhi : c.toNat < 1114112 := by
                          rcases char_not_surrogate c with h | h
                          · omega
                          · exact h.2
                        have hesc : escapeChars (c :: t) =
                            (('\\' :: 'u' :: hex4 (55296 + (c.toNat - 65536) / 1024)) ++
                              ('\\' :: 'u' :: hex4 (56320 + (c.toNat - 65536) % 1024))) ++
                              escapeChars t := by
                          show jsonEscapeChar c ++ escapeChars t = _
                          rw [jesc_astral h1 h2 h3 h4 h5 h6 h7 h8 h9]
                        rw [hesc]
                        simp only [List.cons_append, List.append_assoc]
                        rw [psb_succ_backslash f (readEsc_u_pair h65 hhi _),
                          Char.ofNat_toNat, hih]
                        rfl

theorem jesc_length_pos (c : Char) : 0 < (jsonEscapeChar c).length := by
  unfold jsonEscapeChar
  repeat' split
  all_goals simp [hex4]

theorem escapeChars_length (k : List Char) : k.length ≤ (escapeChars k).length := by
  induction k with
  | nil => simp [escapeChars]
  | cons c t ih =>
    show (c :: t).length ≤ (jsonEscapeChar c ++ escapeChars t).length
    rw [List.length_append, List.length_cons]
    have := jesc_length_pos c
    omega

theorem parseString_escape (k rest : List Char) :
    parseString (escapeChars k ++ '"' :: rest) = some (k, rest) := by
  rw [parseString]
  apply parseStringBody_escape
  have h1 := escapeChars_length k
  have h2 : (escapeChars k ++ '"' :: rest).length =
      (escapeChars k).length + (rest.length + 1) := by
    simp [List.length_append]
  omega

/-! #### Store round-trip: integers -/

theorem hexDigit_isDigit {d : ℕ} (h : d < 10) : (hexDigit d).isDigit = true := by
  interval_cases d <;> decide

theorem hexDigit_toNat {d : ℕ} (h : d < 10) : (hexDigit d).toNat - 48 = d := by
  interval_cases d <;> decide

theorem natCharsAux_all_digits : ∀ (f n : ℕ), ∀ c ∈ natCharsAux f n, c.isDigit = true := by
  intro f
  induction f with
  | zero => intro n c hc; exact absurd hc (List.not_mem_nil c)
  | succ f ih =>
    intro n c hc
    rw [natCharsAux] at hc
    by_cases hn : n = 0
    · rw [if_pos hn] at hc
      exact absurd hc (List.not_mem_nil c)
    · rw [if_neg hn] at hc
      rcases List.mem_append.mp hc with h | h
      · exact ih _ c h
      · rw [List.mem_singleton.mp h]
        exact hexDigit_isDigit (Nat.mod_lt _ (by omega))

theorem natChars_all_digits (n : ℕ) : ∀ c ∈ natChars n, c.isDigit = true := by
  rw [natChars]
  by_cases hn : n = 0
  · rw [if_pos hn]
    intro c hc
    rw [List.mem_singleton.mp hc]
    decide
  · rw [if_neg hn]
    exact natCharsAux_all_digits _ _

theorem natCharsAux_val : ∀ (f n : ℕ), n ≤ f → ∀ acc : ℕ,
    (natCharsAux f n).foldl (fun a c => 10 * a + (c.toNat - 48)) acc =
      acc * 10 ^ (natCharsAux f n).length + n := by
  intro f
  induction f with
  | zero => intro n h acc; interval_cases n; simp [natCharsAux]
  | succ f ih =>
    intro n h acc
    by_cases hn : n = 0
    · subst hn; simp [natCharsAux]
    · rw [natCharsAux, if_neg hn, List.foldl_append, List.foldl_cons, List.foldl_nil,
        ih (n / 10) (by omega) acc, hexDigit_toNat (Nat.mod_lt _ (by omega)),
        List.length_append, List.length_cons, List.length_nil]
      have hqr : 10 * (n / 10) + n % 10 = n := by omega
      have hstep : 10 * (acc * 10 ^ (natCharsAux f (n / 10)).length + n / 10) + n % 10 =
          acc * (10 ^ (natCharsAux f (n / 10)).length * 10) + (10 * (n / 10) + n % 10) := by
        ring
      rw [hstep, hqr, ← pow_succ]

theorem natChars_val (n : ℕ) : digitsVal (natChars n) = n := by
  rw [natChars]
  by_cases hn : n = 0
  · rw [if_pos hn, hn]
    decide
  · rw [if_neg hn, digitsVal, natCharsAux_val (n + 1) n (by omega) 0]
    simp

theorem natChars_ne_nil (n : ℕ) : natChars n ≠ [] := by
  rw [natChars]
  by_cases hn : n = 0
  · rw [if_pos hn]; simp
  · rw [if_neg hn, natCharsAux, if_neg hn]
    simp

theorem takeWhile_append_of_all {p : Char → Bool} :
    ∀ (l1 l2 : List Char), (∀ c ∈ l1, p c = true) →
      (l1 ++ l2).takeWhile p = l1 ++ l2.takeWhile p := by
  intro l1
  induction l1 with
  | nil => intro l2 _; simp
  | cons c t ih =>
    intro l2 h
    rw [List.cons_append, List.takeWhile_cons_of_pos (h c (List.mem_cons_self _ _)),
      ih l2 (fun x hx => h x (List.mem_cons_of_mem _ hx))]
    rfl

theorem dropWhile_append_of_all {p : Char → Bool} :
    ∀ (l1 l2 : List Char), (∀ c ∈ l1, p c = true) →
      (l1 ++ l2).dropWhile p = l2.dropWhile p := by
  intro l1
  induction l1 with
  | nil => intro l2 _; simp
  | cons c t ih =>
    intro l2 h
    rw [List.cons_append, List.dropWhile_cons_of_pos (h c (List.mem_cons_self _ _)),
      ih l2 (fun x hx => h x (List.mem_cons_of_mem _ hx))]

theorem parseNatNum_natChars (n : ℕ) {rest : List Char}
    (htw : rest.takeWhile Char.isDigit = []) (hdw : rest.dropWhile Char.isDigit = rest) :
    parseNatNum (natChars n ++ rest) = some (n, rest) := by
  have hall := natChars_all_digits n
  rw [parseNatNum]
  have h1 : (natChars n ++ rest).takeWhile Char.isDigit = natChars n :=
    (takeWhile_append_of_all _ _ hall).trans (by rw [htw, List.append_nil])
  have h2 : (natChars n ++ rest).dropWhile Char.isDigit = rest :=
    (dropWhile_append_of_all _ _ hall).trans hdw
  rw [h1, h2]
  rw [if_neg (by simp [natChars_ne_nil n])]
  rw [natChars_val]

theorem natChars_shape (n : ℕ) :
    ∃ d ds, natChars n = d :: ds ∧ d.isDigit = true := by
  rcases hn : natChars n with _ | ⟨d, ds⟩
  · exact absurd hn (natChars_ne_nil n)
  · exact ⟨d, ds, rfl, natChars_all_digits n d (by rw [hn]; exact List.mem_cons_self _ _)⟩

theorem parseInt_intChars (i : ℤ) {rest : List Char}
    (htw : rest.takeWhile Char.isDigit = []) (hdw : rest.dropWhile Char.isDigit = rest) :
    parseInt (intChars i ++ rest) = some (i, rest) := by
  rw [intChars]
  by_cases hi : i < 0
  · rw [if_pos hi, List.cons_append]
    simp only [parseInt]
    rw [if_true, parseNatNum_natChars i.natAbs htw hdw]
    show some (-(i.natAbs : ℤ), rest) = some (i, rest)
    have : -(i.natAbs : ℤ) = i := by omega
    rw [this]
  · rw [if_neg hi]
    obtain ⟨d, ds, hshape, hdig⟩ := natChars_shape i.toNat
    rw [hshape, List.cons_append]
    simp only [parseInt]
    have hdash : ¬ d = '-' := by
      intro h
      rw [h] at hdig
      exact absurd hdig (by decide)
    rw [if_neg hdash, ← List.cons_append, ← hshape, parseNatNum_natChars i.toNat htw hdw]
    show some ((i.toNat : ℤ), rest) = some (i, rest)
    have : (i.toNat : ℤ) = i := Int.toNat_of_nonneg (by omega)
    rw [this]

/-! #### Store round-trip: arrays and objects -/

theorem skipWs_rb (xs : List Char) : skipWs (']' :: xs) = ']' :: xs := rfl

theorem skipWs_comma (xs : List Char) : skipWs (',' :: xs) = ',' :: xs := rfl

theorem skipWs_colon (xs : List Char) : skipWs (':' :: xs) = ':' :: xs := rfl

theorem skipWs_lbracket (xs : List Char) : skipWs ('[' :: xs) = '[' :: xs := rfl

theorem skipWs_quote (xs : List Char) : skipWs ('"' :: xs) = '"' :: xs := rfl

theorem skipWs_rbrace (xs : List Char) : skipWs (rbrace :: xs) = rbrace :: xs := rfl

theorem skipWs_space (xs : List Char) : skipWs (' ' :: xs) = skipWs xs := rfl

theorem skipWs_newline (xs : List Char) : skipWs ('\n' :: xs) = skipWs xs := rfl

theorem tw_digit_rb (xs : List Char) : (']' :: xs).takeWhile Char.isDigit = [] := rfl

theorem dw_digit_rb (xs : List Char) : (']' :: xs).dropWhile Char.isDigit = ']' :: xs := rfl

theorem tw_digit_comma (xs : List Char) : (',' :: xs).takeWhile Char.isDigit = [] := rfl

theorem dw_digit_comma (xs : List Char) :
    (',' :: xs).dropWhile Char.isDigit = ',' :: xs := rfl

theorem digit_not_ws {d : Char} (h : d.isDigit = true) : isWsChar d = false := by
  by_contra hws
  have hws2 : isWsChar d = true := by
    cases hval : isWsChar d
    · exact absurd hval hws
    · rfl
  have : ((d = ' ' ∨ d = '\t') ∨ d = '\n') ∨ d = '\r' := by
    simpa [isWsChar, Bool.or_eq_true, decide_eq_true_iff] using hws2
  rcases this with ((rfl | rfl) | rfl) | rfl <;> exact absurd h (by decide)

theorem intChars_shape (i : ℤ) : ∃ d ds, intChars i = d :: ds ∧ isWsChar d = false := by
  rw [intChars]
  by_cases hi : i < 0
  · rw [if_pos hi]
    exact ⟨'-', natChars i.natAbs, rfl, by decide⟩
  · rw [if_neg hi]
    obtain ⟨d, ds, hs, hdig⟩ := natChars_shape i.toNat
    exact ⟨d, ds, hs, digit_not_ws hdig⟩

theorem skipWs_joinInts_cons (j : ℤ) (t2 : List ℤ) (xs : List Char) :
    skipWs (joinInts (j :: t2) ++ xs) = joinInts (j :: t2) ++ xs := by
  obtain ⟨d, ds, hs, hws⟩ := intChars_shape j
  have hshape : ∃ es, joinInts (j :: t2) ++ xs = d :: es := by
    cases t2 with
    | nil =>
      show ∃ es, intChars j ++ xs = d :: es
      rw [hs]
      exact ⟨ds ++ xs, rfl⟩
    | cons k t3 =>
      show ∃ es, (intChars j ++ ',' :: ' ' :: joinInts (k :: t3)) ++ xs = d :: es
      rw [hs]
      exact ⟨(ds ++ ',' :: ' ' :: joinInts (k :: t3)) ++ xs, by simp⟩
  obtain ⟨es, hes⟩ := hshape
  rw [hes, skipWs, List.dropWhile_cons_of_neg (by simp [hws])]

theorem parseArrayTail_joinInts :
    ∀ (l : List ℤ) (f : ℕ) (rest : List Char), l ≠ [] → l.length ≤ f →
      parseArrayTail f (joinInts l ++ ']' :: rest) = some (l, rest) := by
  intro l
  induction l with
  | nil => intro f rest h _; exact absurd rfl h
  | cons i t ih =>
    intro f rest _ hlen
    cases f with
    | zero => simp at hlen
    | succ f =>
      cases t with
      | nil =>
        show parseArrayTail (f + 1) (intChars i ++ ']' :: rest) = some ([i], rest)
        have hInt := parseInt_intChars i (tw_digit_rb rest) (dw_digit_rb rest)
        simp only [parseArrayTail, hInt, skipWs_rb]
      | cons j t2 =>
        have hjoin : joinInts (i :: j :: t2) ++ ']' :: rest =
            intChars i ++ (',' :: ' ' :: (joinInts (j :: t2) ++ ']' :: rest)) := by
          show (intChars i ++ ',' :: ' ' :: joinInts (j :: t2)) ++ ']' :: rest = _
          simp [List.append_assoc]
        rw [hjoin]
        have hInt := parseInt_intChars i
          (tw_digit_comma (' ' :: (joinInts (j :: t2) ++ ']' :: rest)))
          (dw_digit_comma (' ' :: (joinInts (j :: t2) ++ ']' :: rest)))
        have hih : parseArrayTail f (joinInts (j :: t2) ++ ']' :: rest) =
            some (j :: t2, rest) := by
          apply ih f rest (by simp)
          have : (i :: j :: t2).length = (j :: t2).length + 1 := rfl
          omega
        simp only [parseArrayTail, hInt, skipWs_comma, skipWs_space,
          skipWs_joinInts_cons, hih]

/-! #### The cosmetic `.replace("],", "],\n")` rewrite -/

theorem noPair_tail {c : Char} {l : List Char} (h : noPair (c :: l) = true) :
    noPair l = true := by
  cases l with
  | nil => rfl
  | cons d t =>
    rw [noPair, Bool.and_eq_true] at h
    exact h.2

theorem noPair_cons {c : Char} {l : List Char} (hc : ¬ c = ']') (hl : noPair l = true) :
    noPair (c :: l) = true := by
  cases l with
  | nil => rfl
  | cons d t =>
    rw [noPair, Bool.and_eq_true]
    refine ⟨?_, hl⟩
    simp [hc]

theorem noPair_pair {c d : Char} {t : List Char} (h : noPair (c :: d :: t) = true) :
    ¬ (c = ']' ∧ d = ',') := by
  rw [noPair, Bool.and_eq_true] at h
  intro hcd
  have := h.1
  simp [hcd.1, hcd.2] at this

theorem noPair_of_no_bracket : ∀ {l : List Char}, (∀ x ∈ l, ¬ x = ']') →
    noPair l = true := by
  intro l
  induction l with
  | nil => intro _; rfl
  | cons c t ih =>
    intro h
    exact noPair_cons (h c (List.mem_cons_self _ _))
      (ih fun x hx => h x (List.mem_cons_of_mem _ hx))

theorem noPair_append : ∀ {a : List Char} (b : List Char), noPair a = true →
    noPair b = true → ¬(a.getLast? = some ']' ∧ b.head? = some ',') →
    noPair (a ++ b) = true := by
  intro a
  induction a with
  | nil => intro b _ hb _; exact hb
  | cons c t ih =>
    intro b ha hb hbd
    cases t with
    | nil =>
      cases b with
      | nil => rfl
      | cons d u =>
        rw [List.singleton_append, noPair, Bool.and_eq_true]
        constructor
        · simp only [Bool.not_eq_true', Bool.and_eq_false_iff]
          by_cases hc : c = ']'
          · right
            have hd : ¬ d = ',' := fun hd => hbd ⟨by simp [hc], by simp [hd]⟩
            simp [hd]
          · left
            simp [hc]
        · exact hb
    | cons e t2 =>
      rw [List.cons_append, List.cons_append]
      have hpair := noPair_pair ha
      rw [noPair, Bool.and_eq_true]
      constructor
      · simp only [Bool.not_eq_true', Bool.and_eq_false_iff]
        by_cases hc : c = ']'
        · right
          simp only [decide_eq_false_iff_not]
          exact fun hd => hpair ⟨hc, hd⟩
        · left
          simp [hc]
      · rw [← List.cons_append]
        exact ih b (noPair_tail ha) hb
          (by
            intro hcon
            apply hbd
            refine ⟨?_, hcon.2⟩
            rw [List.getLast?_cons_cons]
            exact hcon.1)

theorem replaceAux_cons {c : Char} (hc : ¬ c = ']') (l : List Char) :
    replaceAux (c :: l) = c :: replaceAux l := by
  cases l with
  | nil => rfl
  | cons d t =>
    rw [replaceAux, if_neg (fun hcd => hc hcd.1)]

theorem replaceAux_eq_self : ∀ {l : List Char}, noPair l = true → replaceAux l = l := by
  intro l
  induction l with
  | nil => intro _; rfl
  | cons c t ih =>
    intro h
    cases t with
    | nil => rfl
    | cons d t2 =>
      rw [replaceAux, if_neg (noPair_pair h), ih (noPair_tail h)]

theorem replaceAux_cons₂ {c d : Char} (h : ¬ (c = ']' ∧ d = ',')) (t : List Char) :
    replaceAux (c :: d :: t) = c :: replaceAux (d :: t) := by
  rw [replaceAux, if_neg h]

theorem replaceAux_append_pair :
    ∀ {a : List Char} (b : List Char), noPair (a ++ [']']) = true →
      replaceAux (a ++ ']' :: ',' :: b) = a ++ ']' :: ',' :: '\n' :: replaceAux b := by
  intro a
  induction a with
  | nil =>
    intro b _
    rw [List.nil_append, List.nil_append, replaceAux, if_pos ⟨rfl, rfl⟩]
  | cons c t ih =>
    intro b ha
    cases t with
    | nil =>
      show replaceAux (c :: ']' :: ',' :: b) = c :: ']' :: ',' :: '\n' :: replaceAux b
      rw [replaceAux_cons₂ (fun hcd => by exact absurd hcd.2 (by decide)),
        replaceAux, if_pos ⟨rfl, rfl⟩]
    | cons e t2 =>
      have hpair : ¬ (c = ']' ∧ e = ',') := noPair_pair (by simpa using ha)
      show replaceAux (c :: (e :: t2 ++ ']' :: ',' :: b)) = _
      rw [show e :: t2 ++ ']' :: ',' :: b = e :: (t2 ++ ']' :: ',' :: b) from rfl,
        replaceAux_cons₂ hpair, ← List.cons_append,
        ih b (noPair_tail (by simpa using ha))]
      rfl

theorem hexDigit_ne_bracket (d : ℕ) : ¬ hexDigit d = ']' ∧ ¬ hexDigit d = ',' := by
  rw [hexDigit]
  have h : d % 16 < 16 := Nat.mod_lt _ (by omega)
  set r := d % 16 with hr
  interval_cases r <;> exact ⟨by decide, by decide⟩

theorem jesc_last_bracket {c : Char} (h : (jsonEscapeChar c).getLast? = some ']') :
    c = ']' := by
  unfold jsonEscapeChar at h
  repeat' split at h
  all_goals try exact absurd h (by decide)
  all_goals simp only [hex4, List.cons_append, List.nil_append, List.getLast?_cons_cons,
    List.getLast?_singleton, Option.some.injEq] at h
  all_goals try exact absurd h (hexDigit_ne_bracket _).1
  all_goals exact h

theorem jesc_head_comma {c : Char} (h : (jsonEscapeChar c).head? = some ',') :
    c = ',' := by
  unfold jsonEscapeChar at h
  repeat' split at h
  all_goals simp only [List.cons_append, List.head?_cons, Option.some.injEq] at h
  all_goals try exact absurd h (by decide)
  all_goals exact h

theorem noPair_uescape (n : ℕ) : noPair ('\\' :: 'u' :: hex4 n) = true :=
  noPair_cons (by decide) (noPair_cons (by decide)
    (noPair_cons (hexDigit_ne_bracket _).1 (noPair_cons (hexDigit_ne_bracket _).1
      (noPair_cons (hexDigit_ne_bracket _).1 (noPair_cons (hexDigit_ne_bracket _).1 rfl)))))

theorem noPair_uescape_pair (n m : ℕ) :
    noPair (('\\' :: 'u' :: hex4 n) ++ ('\\' :: 'u' :: hex4 m)) = true :=
  noPair_cons (by decide) (noPair_cons (by decide)
    (noPair_cons (hexDigit_ne_bracket _).1 (noPair_cons (hexDigit_ne_bracket _).1
      (noPair_cons (hexDigit_ne_bracket _).1 (noPair_cons (hexDigit_ne_bracket _).1
        (noPair_cons (by decide) (noPair_cons (by decide)
          (noPair_cons (hexDigit_ne_bracket _).1 (noPair_cons (hexDigit_ne_bracket _).1
            (noPair_cons (hexDigit_ne_bracket _).1
              (noPair_cons (hexDigit_ne_bracket _).1 rfl)))))))))))

theorem noPair_jesc (c : Char) : noPair (jsonEscapeChar c) = true := by
  unfold jsonEscapeChar
  repeat' split
  all_goals first
    | exact noPair_uescape _
    | exact noPair_uescape_pair _ _
    | rfl

theorem escapeChars_head_comma :
    ∀ {t : List Char}, (escapeChars t).head? = some ',' → ∃ u, t = ',' :: u := by
  intro t
  cases t with
  | nil => intro h; exact absurd h (by decide)
  | cons d u =>
    intro h
    show ∃ u2, d :: u = ',' :: u2
    have hne : jsonEscapeChar d ≠ [] := by
      have := jesc_length_pos d
      intro he
      rw [he] at this
      simp at this
    have hh : (jsonEscapeChar d ++ escapeChars u).head? = (jsonEscapeChar d).head? := by
      cases hj : jsonEscapeChar d with
      | nil => exact absurd hj hne
      | cons a b => rfl
    rw [show escapeChars (d :: u) = jsonEscapeChar d ++ escapeChars u from rfl, hh] at h
    exact ⟨u, by rw [jesc_head_comma h]⟩

theorem noPair_escapeChars : ∀ {k : List Char}, noPair k = true →
    noPair (escapeChars k) = true := by
  intro k
  induction k with
  | nil => intro _; rfl
  | cons c t ih =>
    intro h
    show noPair (jsonEscapeChar c ++ escapeChars t) = true
    apply noPair_append _ (noPair_jesc c) (ih (noPair_tail h))
    rintro ⟨hl, hh⟩
    have hc : c = ']' := jesc_last_bracket hl
    obtain ⟨u, rfl⟩ := escapeChars_head_comma hh
    exact noPair_pair h ⟨hc, rfl⟩

theorem digit_ne_bracket {d : Char} (h : d.isDigit = true) : ¬ d = ']' := by
  intro he
  rw [he] at h
  exact absurd h (by decide)

theorem intChars_no_bracket (i : ℤ) : ∀ x ∈ intChars i, ¬ x = ']' := by
  rw [intChars]
  by_cases hi : i < 0
  · rw [if_pos hi]
    intro x hx
    rcases List.mem_cons.mp hx with rfl | hx
    · decide
    · exact digit_ne_bracket (natChars_all_digits _ x hx)
  · rw [if_neg hi]
    intro x hx
    exact digit_ne_bracket (natChars_all_digits _ x hx)

theorem joinInts_no_bracket : ∀ (l : List ℤ), ∀ x ∈ joinInts l, ¬ x = ']' := by
  intro l
  induction l with
  | nil => intro x hx; exact absurd hx (List.not_mem_nil x)
  | cons i t ih =>
    intro x hx
    cases t with
    | nil => exact intChars_no_bracket i x hx
    | cons j t2 =>
      rcases List.mem_append.mp hx with hx | hx
      · exact intChars_no_bracket i x hx
      · rcases List.mem_cons.mp hx with rfl | hx
        · decide
        · rcases List.mem_cons.mp hx with rfl | hx
          · decide
          · exact ih x hx

theorem noPair_encArr (l : List ℤ) : noPair (encArr l) = true := by
  show noPair ('[' :: (joinInts l ++ [']'])) = true
  rw [show '[' :: (joinInts l ++ [']']) = ('[' :: joinInts l) ++ [']'] from rfl]
  apply noPair_append _ ?_ (by rfl) ?_
  · apply noPair_of_no_bracket
    intro x hx
    rcases List.mem_cons.mp hx with rfl | hx
    · decide
    · exact joinInts_no_bracket l x hx
  · rintro ⟨-, hh⟩
    exact absurd (Option.some.inj hh) (by decide)

theorem noPair_encEntry {e : String × List ℤ} (hk : noPair e.1.data = true) :
    noPair (encEntry e) = true := by
  show noPair ('"' :: (escapeChars e.1.data ++ '"' :: ':' :: ' ' :: encArr e.2)) = true
  rw [show '"' :: (escapeChars e.1.data ++ '"' :: ':' :: ' ' :: encArr e.2) =
      ('"' :: escapeChars e.1.data) ++ ('"' :: ':' :: ' ' :: encArr e.2) from rfl]
  apply noPair_append _ (noPair_cons (by decide) (noPair_escapeChars hk))
    (noPair_cons (by decide) (noPair_cons (by decide)
      (noPair_cons (by decide) (noPair_encArr e.2))))
  rintro ⟨-, hh⟩
  exact absurd (Option.some.inj hh) (by decide)

theorem encEntry_split (e : String × List ℤ) :
    encEntry e = ('"' :: (escapeChars e.1.data ++ '"' :: ':' :: ' ' ::
      ('[' :: joinInts e.2))) ++ [']'] := by
  show '"' :: (escapeChars e.1.data ++ '"' :: ':' :: ' ' :: ('[' :: (joinInts e.2 ++ [']']))) = _
  simp [List.append_assoc]

theorem replaceAux_entries :
    ∀ (m : List (String × List ℤ)), (∀ e ∈ m, noPair e.1.data = true) →
      replaceAux (joinEntries (m.map encEntry) ++ [rbrace]) =
        entriesTextNl m ++ [rbrace] := by
  intro m
  induction m with
  | nil => intro _; rfl
  | cons e es ih =>
    intro hkeys
    have hke : noPair e.1.data = true := hkeys e (List.mem_cons_self _ _)
    cases es with
    | nil =>
      show replaceAux (encEntry e ++ [rbrace]) = encEntry e ++ [rbrace]
      apply replaceAux_eq_self
      apply noPair_append _ (noPair_encEntry hke) (by rfl)
      rintro ⟨-, hh⟩
      exact absurd (Option.some.inj hh) (by decide)
    | cons e2 es2 =>
      have hjoin : joinEntries ((e :: e2 :: es2).map encEntry) ++ [rbrace] =
          ('"' :: (escapeChars e.1.data ++ '"' :: ':' :: ' ' :: ('[' :: joinInts e.2))) ++
            ']' :: ',' :: (' ' :: (joinEntries ((e2 :: es2).map encEntry) ++ [rbrace])) := by
        show (encEntry e ++ ',' :: ' ' :: joinEntries ((e2 :: es2).map encEntry)) ++
            [rbrace] = _
        rw [encEntry_split e]
        simp [List.append_assoc]
      rw [hjoin, replaceAux_append_pair _ (by rw [← encEntry_split e]; exact noPair_encEntry hke),
        replaceAux_cons (by decide), ih (fun x hx => hkeys x (List.mem_cons_of_mem _ hx))]
      show _ = (encEntry e ++ ',' :: '\n' :: ' ' :: entriesTextNl (e2 :: es2)) ++ [rbrace]
      rw [encEntry_split e]
      simp [List.append_assoc]

/-- The text written by `record` is, after the cosmetic rewrite, the
entries joined by a comma, the inserted newline and the original space. -/
theorem replaceAux_dumps (m : List (String × List ℤ))
    (hkeys : ∀ e ∈ m, noPair e.1.data = true) :
    replaceAux (dumpsChars m) = lbrace :: (entriesTextNl m ++ [rbrace]) := by
  rw [dumpsChars, replaceAux_cons (by decide), replaceAux_entries m hkeys]

theorem joinInts_cons_head (i : ℤ) (t : List ℤ) :
    ∃ d ds, joinInts (i :: t) = d :: ds ∧ ¬ d = ']' := by
  obtain ⟨d, ds, hs, _⟩ := intChars_shape i
  have hd : ¬ d = ']' :=
    intChars_no_bracket i d (by rw [hs]; exact List.mem_cons_self _ _)
  cases t with
  | nil => exact ⟨d, ds, hs, hd⟩
  | cons j t2 =>
    refine ⟨d, ds ++ ',' :: ' ' :: joinInts (j :: t2), ?_, hd⟩
    show intChars i ++ ',' :: ' ' :: joinInts (j :: t2) = _
    rw [hs]
    rfl

theorem parseArray_joinInts (l : List ℤ) (f : ℕ) (rest : List Char)
    (hlen : l.length ≤ f) :
    parseArray f (joinInts l ++ ']' :: rest) = some (l, rest) := by
  cases l with
  | nil =>
    show parseArray f (']' :: rest) = some ([], rest)
    simp only [parseArray, skipWs_rb]
  | cons i t =>
    obtain ⟨d, ds, hs, hd⟩ := joinInts_cons_head i t
    rw [parseArray, skipWs_joinInts_cons]
    split
    · rename_i r2 heq
      exfalso
      rw [hs, List.cons_append] at heq
      injection heq with h1 _
      exact hd h1
    · exact parseArrayTail_joinInts _ _ _ (by simp) hlen

theorem entriesTextNl_quote (e : String × List ℤ) (es : List (String × List ℤ)) :
    ∃ X, entriesTextNl (e :: es) = '"' :: X := by
  cases es with
  | nil => exact ⟨escapeChars e.1.data ++ '"' :: ':' :: ' ' :: encArr e.2, rfl⟩
  | cons f fs =>
    exact ⟨(escapeChars e.1.data ++ '"' :: ':' :: ' ' :: encArr e.2) ++
      ',' :: '\n' :: ' ' :: entriesTextNl (f :: fs), rfl⟩

theorem parseObjTail_entries :
    ∀ (m : List (String × List ℤ)) (f : ℕ) (rest : List Char), m ≠ [] →
      m.length + (m.map (fun e => e.2.length)).sum ≤ f →
      parseObjTail f (entriesTextNl m ++ rbrace :: rest) = some (m, rest) := by
  intro m
  induction m with
  | nil => intro f rest h _; exact absurd rfl h
  | cons e es ih =>
    intro f rest _ hle
    have hlen1 : (e :: es).length = es.length + 1 := rfl
    have hsum1 : (((e :: es).map (fun x => x.2.length)).sum : ℕ) =
        e.2.length + ((es.map (fun x => x.2.length)).sum : ℕ) := by
      rw [List.map_cons, List.sum_cons]
    cases f with
    | zero => omega
    | succ f =>
      cases es with
      | nil =>
        have htext : entriesTextNl [e] ++ rbrace :: rest =
            '"' :: (escapeChars e.1.data ++ '"' :: (':' :: (' ' ::
              ('[' :: (joinInts e.2 ++ ']' :: (rbrace :: rest)))))) := by
          show ('"' :: (escapeChars e.1.data ++ '"' :: ':' :: ' ' ::
            ('[' :: (joinInts e.2 ++ [']'])))) ++ rbrace :: rest = _
          simp [List.append_assoc]
        rw [htext]
        have hps := parseString_escape e.1.data
          (':' :: (' ' :: ('[' :: (joinInts e.2 ++ ']' :: (rbrace :: rest)))))
        have hpa : parseArray (f + 1) (joinInts e.2 ++ ']' :: (rbrace :: rest)) =
            some (e.2, rbrace :: rest) := parseArray_joinInts _ _ _ (by omega)
        simp only [parseObjTail, if_true, hps, skipWs_colon, skipWs_space,
          skipWs_lbracket, hpa, skipWs_rbrace]
      | cons e2 es2 =>
        have htext : entriesTextNl (e :: e2 :: es2) ++ rbrace :: rest =
            '"' :: (escapeChars e.1.data ++ '"' :: (':' :: (' ' ::
              ('[' :: (joinInts e.2 ++ ']' :: (',' :: ('\n' :: (' ' ::
                (entriesTextNl (e2 :: es2) ++ rbrace :: rest))))))))) := by
          show ((('"' :: (escapeChars e.1.data ++ '"' :: ':' :: ' ' ::
            ('[' :: (joinInts e.2 ++ [']'])))) ++
              ',' :: '\n' :: ' ' :: entriesTextNl (e2 :: es2)) ++ rbrace :: rest) = _
          simp [List.append_assoc]
        rw [htext]
        have hps := parseString_escape e.1.data
          (':' :: (' ' :: ('[' :: (joinInts e.2 ++ ']' :: (',' :: ('\n' :: (' ' ::
            (entriesTextNl (e2 :: es2) ++ rbrace :: rest))))))))
        have hpa : parseArray (f + 1) (joinInts e.2 ++ ']' :: (',' :: ('\n' :: (' ' ::
            (entriesTextNl (e2 :: es2) ++ rbrace :: rest))))) =
            some (e.2, ',' :: ('\n' :: (' ' ::
              (entriesTextNl (e2 :: es2) ++ rbrace :: rest)))) :=
          parseArray_joinInts _ _ _ (by omega)
        obtain ⟨X, hX⟩ := entriesTextNl_quote e2 es2
        have hskipq : skipWs (entriesTextNl (e2 :: es2) ++ rbrace :: rest) =
            entriesTextNl (e2 :: es2) ++ rbrace :: rest := by
          rw [hX, List.cons_append, skipWs_quote]
        have hih : parseObjTail f (entriesTextNl (e2 :: es2) ++ rbrace :: rest) =
            some (e2 :: es2, rest) := by
          apply ih f rest (by simp)
          have hlen2 : (e2 :: es2).length = es2.length + 1 := rfl
          have hsum2 : (((e2 :: es2).map (fun x => x.2.length)).sum : ℕ) =
              e2.2.length + ((es2.map (fun x => x.2.length)).sum : ℕ) := by
            rw [List.map_cons, List.sum_cons]
          omega
        simp only [parseObjTail, if_true, hps, skipWs_colon, skipWs_space,
          skipWs_lbracket, hpa, skipWs_comma, skipWs_newline, hskipq, hih]
        rfl

theorem skipWs_lbrace_ch (xs : List Char) : skipWs (lbrace :: xs) = lbrace :: xs := rfl

theorem skipWs_nl_nil : skipWs ['\n'] = [] := rfl

theorem intChars_length (i : ℤ) : 1 ≤ (intChars i).length := by
  obtain ⟨d, ds, hs, _⟩ := intChars_shape i
  rw [hs]
  simp

theorem joinInts_length : ∀ (l : List ℤ), l.length ≤ (joinInts l).length := by
  intro l
  induction l with
  | nil => simp [joinInts]
  | cons i t ih =>
    cases t with
    | nil => exact intChars_length i
    | cons j t2 =>
      have h1 := intChars_length i
      have h2 : joinInts (i :: j :: t2) =
          intChars i ++ ',' :: ' ' :: joinInts (j :: t2) := rfl
      rw [h2]
      simp only [List.length_append, List.length_cons] at *
      omega

theorem encEntry_length (e : String × List ℤ) :
    e.2.length + 1 ≤ (encEntry e).length := by
  have h := joinInts_length e.2
  show e.2.length + 1 ≤ ('"' :: (escapeChars e.1.data ++ '"' :: ':' :: ' ' ::
    ('[' :: (joinInts e.2 ++ [']'])))).length
  simp only [List.length_cons, List.length_append]
  omega

theorem entriesTextNl_length : ∀ (M : List (String × List ℤ)),
    M.length + (M.map (fun e => e.2.length)).sum ≤ (entriesTextNl M).length := by
  intro M
  induction M with
  | nil => simp [entriesTextNl]
  | cons e es ih =>
    cases es with
    | nil =>
      have h := encEntry_length e
      simp only [entriesTextNl, List.map_cons, List.map_nil, List.sum_cons,
        List.sum_nil, List.length_cons, List.length_nil]
      omega
    | cons e2 es2 =>
      have h := encEntry_length e
      have h2 : entriesTextNl (e :: e2 :: es2) =
          encEntry e ++ ',' :: '\n' :: ' ' :: entriesTextNl (e2 :: es2) := rfl
      rw [h2]
      simp only [List.length_append, List.length_cons, List.map_cons, List.sum_cons]
      simp only [List.length_cons, List.map_cons, List.sum_cons] at ih
      omega

theorem parseTop_entries (M : List (String × List ℤ)) :
    parseTop (lbrace :: (entriesTextNl M ++ rbrace :: ['\n'])) = some M := by
  cases M with
  | nil => rfl
  | cons e es =>
    obtain ⟨X, hX⟩ := entriesTextNl_quote e es
    have harg : entriesTextNl (e :: es) ++ rbrace :: ['\n'] =
        '"' :: (X ++ rbrace :: ['\n']) := by
      rw [hX]
      rfl
    have hskipq2 : skipWs (entriesTextNl (e :: es) ++ rbrace :: ['\n']) =
        '"' :: (X ++ rbrace :: ['\n']) := by
      rw [harg, skipWs_quote]
    have hobj : parseObjTail
        ((lbrace :: (entriesTextNl (e :: es) ++ rbrace :: ['\n'])).length + 1)
        (entriesTextNl (e :: es) ++ rbrace :: ['\n']) = some (e :: es, ['\n']) := by
      apply parseObjTail_entries _ _ _ (by simp)
      have h := entriesTextNl_length (e :: es)
      simp only [List.length_cons, List.length_append, List.length_nil,
        List.map_cons, List.sum_cons] at *
      omega
    have hobj2 : parseObjTail
        ((lbrace :: (entriesTextNl (e :: es) ++ rbrace :: ['\n'])).length + 1)
        ('"' :: (X ++ rbrace :: ['\n'])) = some (e :: es, ['\n']) := by
      rw [← harg]
      exact hobj
    simp only [parseTop, skipWs_lbrace_ch, hskipq2, hobj2, skipWs_nl_nil,
      List.isEmpty_nil, if_true]
    rw [if_neg (by decide)]

theorem saveChars_shape (m : List (String × List ℤ))
    (hkeys : ∀ e ∈ sortByKey m, noPair e.1.data = true) :
    saveChars m = lbrace :: (entriesTextNl (sortByKey m) ++ rbrace :: ['\n']) := by
  rw [saveChars, replaceAux_dumps (sortByKey m) hkeys]
  simp [List.append_assoc]

theorem recordLoad_saveText (m : List (String × List ℤ))
    (hkeys : ∀ e ∈ sortByKey m, noPair e.1.data = true) :
    recordLoad (some (saveText m)) = sortByKey m := by
  show (parseRecords (saveText m)).getD [] = sortByKey m
  have hp : parseRecords (saveText m) = some (sortByKey m) := by
    show parseTop (saveChars m) = some (sortByKey m)
    rw [saveChars_shape m hkeys, parseTop_entries]
  rw [hp]
  rfl

theorem insertByKey_perm (e : String × List ℤ) :
    ∀ l, (insertByKey e l).Perm (e :: l) := by
  intro l
  induction l with
  | nil => exact List.Perm.refl _
  | cons f t ih =>
    rw [insertByKey]
    by_cases h : keyLt e.1 f.1 = true
    · rw [if_pos h]
    · rw [if_neg h]
      exact (ih.cons f).trans (List.Perm.swap e f t)

theorem sortByKey_perm : ∀ (m : List (String × List ℤ)), (sortByKey m).Perm m := by
  intro m
  induction m with
  | nil => exact List.Perm.refl _
  | cons e t ih =>
    rw [sortByKey]
    exact (insertByKey_perm e (sortByKey t)).trans (ih.cons e)

/-- C3 counterexample: the store round-trip is not the identity for every
mapping.  A key containing the two-character sequence `],` is corrupted
by the cosmetic `.replace("],", "],\n")` pass — the rewrite inserts a raw
newline inside the JSON string literal of the key — so the file written
for the one-entry store with key `a],b` no longer parses, and the next
record session starts from the empty store instead of recovering the
entry. -/
theorem c3_store_roundtrip_counterexample :
    ¬ ((recordLoad (some (saveText [(String.mk ['a', ']', ',', 'b'], [1])]))).Perm
        [(String.mk ['a', ']', ',', 'b'], [1])]) := by decide

/-- C3 (amended): for every mapping whose keys avoid the substring `],`
targeted by the cosmetic rewrite — which holds for all realistic ids —
saving the store at the end of a record session and loading it back at
the start of the next yields exactly the same entries (same key set,
every integer duration preserved exactly), merely reordered into sorted
key order.  The unrestricted claim is refuted by
`c3_store_roundtrip_counterexample`. -/
theorem c3_store_roundtrip (m : List (String × List ℤ))
    (hkeys : ∀ e ∈ m, noPair e.1.data = true) :
    (recordLoad (some (saveText m))).Perm m := by
  have hk2 : ∀ e ∈ sortByKey m, noPair e.1.data = true := fun e he =>
    hkeys e ((sortByKey_perm m).subset he)
  rw [recordLoad_saveText m hk2]
  exact sortByKey_perm m

/-- C3 witness: a concrete two-entry store with negative and multi-digit
durations survives the save/load round-trip up to reordering. -/
theorem c3_store_roundtrip_witness :
    (∀ e ∈ ([(String.mk ['t', 'v'], [9000, -75, 608]), (String.mk ['a'], [10])] :
        List (String × List ℤ)), noPair e.1.data = true) ∧
    (recordLoad (some (saveText
        [(String.mk ['t', 'v'], [9000, -75, 608]), (String.mk ['a'], [10])]))).Perm
      [(String.mk ['t', 'v'], [9000, -75, 608]), (String.mk ['a'], [10])] :=
  ⟨by decide, c3_store_roundtrip _ (by decide)⟩

/-- C7 counterexample: the local-recovery claim fails for the playback
entry point.  `play` calls `exit(0)` when the file cannot be opened and
runs `json.load` outside any `try`, so a corrupt file raises an uncaught
exception; neither path continues with an empty store. -/
theorem c7_play_no_recovery :
    playLoad none = PlayLoadResult.exitedCantOpen ∧
    playLoad (some (String.mk ['x'])) = PlayLoadResult.raisedParseError := by decide

/-- C7 (amended): the record entry point does recover locally — a missing
file or any content that fails to parse yields the empty store, with no
error surfaced.  The playback entry point does not, as
`c7_play_no_recovery` shows. -/
theorem c7_record_load_recovers (s : String) (h : parseRecords s = none) :
    recordLoad none = [] ∧ recordLoad (some s) = [] := by
  refine ⟨rfl, ?_⟩
  show (parseRecords s).getD [] = []
  rw [h]
  rfl

/-- C7 witness: a one-character garbage file parses to nothing and loads
as the empty store in a record session. -/
theorem c7_record_load_recovers_witness :
    parseRecords (String.mk ['x']) = none ∧
    recordLoad none = [] ∧ recordLoad (some (String.mk ['x'])) = [] :=
  ⟨by decide, c7_record_load_recovers (String.mk ['x']) (by decide)⟩

end Irrp
